import Mathlib

/-! my-wc: a shallow embedding of `main.go`.

The program counts lines, words and bytes of its input streams.  `count` reads
runes from a `bufio.Reader` until the stream ends; `printCounts` writes one
output line; `main` runs `count` on standard input or on each named file and
prints the lines and the total; `run` is the program from its command line,
`flag.Parse` included.  The Go standard library routines the program calls
(`utf8.DecodeRune`, `bufio.Reader.ReadRune`, `unicode.IsSpace`, the `%8d`
verb of `fmt.Printf`) are embedded from their Go sources.

Go's `int` counters are embedded as unbounded integers (`Int`): a counter of
the program only ever grows by at most four per rune read, so it agrees with
the 64-bit machine integer on every stream shorter than `2^63` bytes.
-/

namespace MyWc

/-! ## Bytes and runes

A decoded code point (Go `rune`) is embedded as a natural number: decoding
never yields a negative rune. -/

/-- A byte of the input stream. -/
abbrev Byte := Fin 256

/-- The replacement character `utf8.RuneError`, U+FFFD. -/
def RuneError : Nat := 0xFFFD

/-- Runes below `utf8.RuneSelf` are encoded as a single byte. -/
def RuneSelf : Nat := 0x80

/-- Lowest continuation byte, `locb = 0b10000000`. -/
def locb : Nat := 0x80

/-- Highest continuation byte, `hicb = 0b10111111`. -/
def hicb : Nat := 0xBF

/-- The table `first` of package `utf8`: information about the first byte of
a UTF-8 sequence.  `as = 0xF0` for ASCII, `xx = 0xF1` for an invalid first
byte, otherwise the accept-range index in the high nibble and the sequence
size in the low bits (`s1 = 0x02`, `s2 = 0x13`, `s3 = 0x03`, `s4 = 0x23`,
`s5 = 0x34`, `s6 = 0x04`, `s7 = 0x44`). -/
def first (b : Nat) : Nat :=
  if b < 0x80 then 0xF0        -- 0x00-0x7F: as
  else if b < 0xC2 then 0xF1   -- 0x80-0xC1: xx
  else if b < 0xE0 then 0x02   -- 0xC2-0xDF: s1
  else if b = 0xE0 then 0x13   -- 0xE0: s2
  else if b < 0xED then 0x03   -- 0xE1-0xEC: s3
  else if b = 0xED then 0x23   -- 0xED: s4
  else if b < 0xF0 then 0x03   -- 0xEE-0xEF: s3
  else if b = 0xF0 then 0x34   -- 0xF0: s5
  else if b < 0xF4 then 0x04   -- 0xF1-0xF3: s6
  else if b = 0xF4 then 0x44   -- 0xF4: s7
  else 0xF1                    -- 0xF5-0xFF: xx

/-- The table `acceptRanges` of package `utf8`: the range `(lo, hi)` of valid
second bytes, by accept-range index. -/
def acceptRanges (i : Nat) : Nat × Nat :=
  match i with
  | 0 => (locb, hicb)
  | 1 => (0xA0, hicb)
  | 2 => (locb, 0x9F)
  | 3 => (0x90, hicb)
  | 4 => (locb, 0x8F)
  | _ => (0, 0)

/-- Byte `i` of the slice `p`, as a number (only read where `i < len(p)`). -/
def byteAt (p : List Byte) (i : Nat) : Nat := (p.getD i 0).val

/-- Go `utf8.DecodeRune`: decodes the first UTF-8 encoding in `p` and returns
the rune and its width in bytes; `(RuneError, 0)` on the empty slice and
`(RuneError, 1)` on an invalid or truncated encoding. -/
def decodeRune (p : List Byte) : Nat × Nat :=
  let n := p.length
  if n < 1 then (RuneError, 0)
  else
    let p0 := byteAt p 0
    let x := first p0
    if x ≥ 0xF0 then
      -- mask is all ones for `xx` (odd) and zero for `as` (even)
      if x % 2 = 1 then (RuneError, 1) else (p0, 1)
    else
      let sz := x &&& 7
      let accept := acceptRanges (x >>> 4)
      if n < sz then (RuneError, 1)
      else
        let b1 := byteAt p 1
        if b1 < accept.1 ∨ accept.2 < b1 then (RuneError, 1)
        else if sz ≤ 2 then (((p0 &&& 0x1F) <<< 6) ||| (b1 &&& 0x3F), 2)
        else
          let b2 := byteAt p 2
          if b2 < locb ∨ hicb < b2 then (RuneError, 1)
          else if sz ≤ 3 then
            (((p0 &&& 0x0F) <<< 12) ||| ((b1 &&& 0x3F) <<< 6) ||| (b2 &&& 0x3F), 3)
          else
            let b3 := byteAt p 3
            if b3 < locb ∨ hicb < b3 then (RuneError, 1)
            else
              (((p0 &&& 0x07) <<< 18) ||| ((b1 &&& 0x3F) <<< 12)
                ||| ((b2 &&& 0x3F) <<< 6) ||| (b3 &&& 0x3F), 4)

/-! ## unicode.IsSpace -/

/-- The 16-bit ranges `(Lo, Hi, Stride)` of `unicode.White_Space`. -/
def whiteSpaceR16 : List (Nat × Nat × Nat) :=
  [(0x0009, 0x000d, 1), (0x0020, 0x0085, 101), (0x00a0, 0x1680, 5600),
   (0x2000, 0x200a, 1), (0x2028, 0x2029, 1), (0x202f, 0x205f, 48),
   (0x3000, 0x3000, 1)]

/-- `LatinOffset` of `unicode.White_Space`: the number of leading ranges with
`Hi <= MaxLatin1`. -/
def whiteSpaceLatinOffset : Nat := 2

/-- Go `unicode.is16` (the linear search used for short tables): whether `r`
lies in one of the sorted ranges. -/
def is16 : List (Nat × Nat × Nat) → Nat → Bool
  | [], _ => false
  | (lo, hi, stride) :: rest, r =>
    if r < lo then false
    else if r ≤ hi then stride == 1 || (r - lo) % stride == 0
    else is16 rest r

/-- Go `unicode.isExcludingLatin` on `White_Space`, whose `R32` is empty. -/
def isExcludingLatin (r : Nat) : Bool :=
  let r16 := whiteSpaceR16
  let off := whiteSpaceLatinOffset
  if r16.length > off ∧ r ≤ (r16.getD (r16.length - 1) (0, 0, 0)).2.1 then
    is16 (r16.drop off) r
  else false

/-- Go `unicode.IsSpace`: the Latin-1 spaces are `'\t'`, `'\n'`, `'\v'`,
`'\f'`, `'\r'`, `' '`, U+0085 (NEL), U+00A0 (NBSP); above Latin-1 the
`White_Space` property decides. -/
def isSpace (r : Nat) : Bool :=
  if r ≤ 0xFF then
    r == 0x09 || r == 0x0A || r == 0x0B || r == 0x0C || r == 0x0D || r == 0x20
      || r == 0x85 || r == 0xA0
  else isExcludingLatin r

/-! ## Streams and bufio.Reader -/

/-- An error value returned by a read: `io.EOF` or any other error. -/
inductive Err where
  | EOF
  | other (code : Nat)
  deriving DecidableEq, Repr

/-- A finite `io.Reader` wrapped in a `bufio.Reader`: the bytes the stream
still delivers, and the error that ends it (`io.EOF` for a clean end).  The
bytes a `Read` call returns together with its error belong to `buf`. -/
structure Reader where
  buf : List Byte
  err : Err
  deriving DecidableEq, Repr

/-- The rune at the head of the non-empty buffer `c :: rest` and its size, as
`ReadRune` computes them: `r, size = rune(b.buf[b.r]), 1`, and
`utf8.DecodeRune` when `r >= utf8.RuneSelf`. -/
def nextRune (c : Byte) (rest : List Byte) : Nat × Nat :=
  if c.val ≥ RuneSelf then decodeRune (c :: rest) else (c.val, 1)

/-- Go `bufio.Reader.ReadRune`.  The reader refills its buffer until it holds
a full rune, `utf8.UTFMax` bytes, or the stream has ended, so the decoder sees
the undelivered rest of the stream wherever it would look.  With no byte left
the stream's error is returned; a byte below `RuneSelf` is returned as is;
otherwise `utf8.DecodeRune` decides.  Result: rune, size, error, reader. -/
def readRune (b : Reader) : Nat × Nat × Option Err × Reader :=
  match b.buf with
  | [] => (0, 0, some b.err, b)
  | c :: rest =>
    let rs := nextRune c rest
    (rs.1, rs.2, none, { b with buf := (c :: rest).drop rs.2 })

/-! ## count -/

/-- The four results of `count`: `(lines, words, bytesCount, err)`, with
`err = none` for Go's `nil`. -/
structure Counts where
  lines : Int
  words : Int
  bytesCount : Int
  err : Option Err
  deriving DecidableEq, Repr

/-- The `for` loop of `count`.  Each iteration reads one rune; `fuel` bounds
the number of iterations and `none` means the bound was reached. -/
def countLoop : Nat → Reader → Int → Int → Int → Bool → Option Counts
  | 0, _, _, _, _, _ => none
  | fuel + 1, br, lines, words, bytesCount, inWord =>
    match readRune br with
    | (_, _, some e, _) =>
      if e = Err.EOF then
        -- break, then `return lines, words, bytesCount, nil`
        some ⟨lines, words, bytesCount, none⟩
      else
        -- `return lines, words, bytesCount, e`
        some ⟨lines, words, bytesCount, some e⟩
    | (ch, size, none, br1) =>
      let bytesCount := bytesCount + size
      let lines := if ch = 0x0A then lines + 1 else lines
      if isSpace ch then
        countLoop fuel br1 lines words bytesCount false
      else if !inWord then
        countLoop fuel br1 lines (words + 1) bytesCount true
      else
        countLoop fuel br1 lines words bytesCount inWord

/-- Go `count`: reads `r` to its end and returns the counts.  Every iteration
but the last consumes at least one byte, so `len + 1` iterations suffice. -/
def count (r : Reader) : Option Counts :=
  countLoop (r.buf.length + 1) r 0 0 0 false

/-- The stream that delivers `bs` and then ends cleanly with `io.EOF`. -/
def ofBytes (bs : List Byte) : Reader := ⟨bs, Err.EOF⟩

/-! ## Specification-side notions -/

/-- The runes of `p` with their sizes, decoded front to back as `ReadRune`
does; `fuel` bounds the number of runes. -/
def decodeAll : Nat → List Byte → List (Nat × Nat)
  | 0, _ => []
  | _ + 1, [] => []
  | fuel + 1, c :: rest =>
    nextRune c rest :: decodeAll fuel ((c :: rest).drop (nextRune c rest).2)

/-- The decoded character sequence of the byte sequence `p`. -/
def runes (p : List Byte) : List Nat := (decodeAll p.length p).map Prod.fst

/-- The number of line-feed bytes (0x0A) in `p`. -/
def lineFeeds (p : List Byte) : Nat := p.countP fun b => b.val == 0x0A

/-- Position `i` of `rs` holds a non-whitespace character that is first in
the sequence or preceded by a whitespace character. -/
def isWordStart (rs : List Nat) (i : Nat) : Bool :=
  !isSpace (rs.getD i 0) && (i == 0 || isSpace (rs.getD (i - 1) 0))

/-- The number of positions of `rs` that start a word. -/
def wordStarts (rs : List Nat) : Nat :=
  (List.range rs.length).countP (isWordStart rs)

/-- The number of word starts in `rs` when the character before `rs` left the
scanner inside a word (`inWord`) or outside one. -/
def wordsFrom (inWord : Bool) : List Nat → Nat
  | [] => 0
  | r :: rs =>
    if isSpace r then wordsFrom false rs
    else (if inWord then 0 else 1) + wordsFrom true rs

/-- The scanner's `inWord` flag after the characters `rs`, entered with the
flag `inWord`: it is set by a non-whitespace and cleared by a whitespace
character. -/
def inWordAfter (inWord : Bool) : List Nat → Bool
  | [] => inWord
  | r :: rs => inWordAfter (!isSpace r) rs

/-- The maximal runs of consecutive non-whitespace characters of `rs`: the
non-empty pieces into which the whitespace characters split it. -/
def wordRuns (rs : List Nat) : List (List Nat) :=
  (rs.splitOnP isSpace).filter fun w => !w.isEmpty

/-! ## printCounts -/

/-- The digit loop of Go `fmt.fmtInteger` in base 10: writes the digits of `u`
in front of `buf`, the least significant first.  `fuel` bounds the number of
digits. -/
def fmtDigits : Nat → Nat → List Char → List Char
  | 0, _, buf => buf
  | fuel + 1, u, buf =>
    if u ≥ 10 then
      fmtDigits fuel (u / 10) (Char.ofNat (48 + (u - u / 10 * 10)) :: buf)
    else Char.ofNat (48 + u) :: buf

/-- The verb `%8d` of `fmt.Printf`: the decimal digits of the absolute value, a
leading `-` for a negative number, and spaces on the left up to width 8. -/
def fmtInt8 (n : Int) : String :=
  let u := n.natAbs
  let ds := fmtDigits (u + 1) u []
  let b := if n < 0 then '-' :: ds else ds
  String.mk (List.replicate (8 - b.length) ' ' ++ b)

/-- Go `printCounts`; `stdout` is the text written to standard output so far,
and the result is the text after the call. -/
def printCounts (lines words bytesCount : Int) (name : String) (showL showW showC : Bool)
    (stdout : String) : String :=
  let stdout := if showL then stdout ++ fmtInt8 lines else stdout
  let stdout := if showW then stdout ++ fmtInt8 words else stdout
  let stdout := if showC then stdout ++ fmtInt8 bytesCount else stdout
  let stdout := if name != "" then stdout ++ " " ++ name else stdout
  stdout ++ "\n"

/-- The text `s` right-justified in a field of `width` characters: padded with
spaces on the left. -/
def rightJustify (width : Nat) (s : String) : String :=
  String.mk (List.replicate (width - s.length) ' ') ++ s

/-- The output line the specification describes: the requested counts in the
order lines, words, bytes, each in decimal right-justified in width 8, then a
space and the name unless the name is empty, then a newline. -/
def specLine (lines words bytesCount : Int) (name : String) (showL showW showC : Bool) :
    String :=
  String.join
      (([(showL, lines), (showW, words), (showC, bytesCount)].filter Prod.fst).map
        fun p => rightJustify 8 (toString p.2))
    ++ (if name = "" then "" else " " ++ name) ++ "\n"

/-! ## The loop of count, pass by pass -/

/-- The variables of the `for` loop of `count`: the reader, the three counters
and the flag `inWord`. -/
structure LoopVars where
  br : Reader
  lines : Int
  words : Int
  bytesCount : Int
  inWord : Bool
  deriving DecidableEq, Repr

/-- One pass through the body of the `for` loop of `count`: `none` when
`ReadRune` returns an error and the loop is left, otherwise the variables at
the end of the body. -/
def loopBody (v : LoopVars) : Option LoopVars :=
  match readRune v.br with
  | (_, _, some _, _) => none
  | (ch, size, none, br1) =>
    let bytesCount := v.bytesCount + size
    let lines := if ch = 0x0A then v.lines + 1 else v.lines
    if isSpace ch then
      some ⟨br1, lines, v.words, bytesCount, false⟩
    else if !v.inWord then
      some ⟨br1, lines, v.words + 1, bytesCount, true⟩
    else
      some ⟨br1, lines, v.words, bytesCount, v.inWord⟩

/-- The variables of the loop after `n` passes through its body, or when the
loop was left if that came earlier. -/
def varsAfter : Nat → LoopVars → LoopVars
  | 0, v => v
  | n + 1, v =>
    match loopBody v with
    | none => v
    | some v1 => varsAfter n v1

/-- The variables with which `count` enters its loop on the stream `r`. -/
def initVars (r : Reader) : LoopVars := ⟨r, 0, 0, 0, false⟩

/-- Whether `b` is a UTF-8 continuation byte, `0x80..0xBF`. -/
def isCont (b : Nat) : Bool := decide (0x80 ≤ b) && decide (b ≤ 0xBF)

/-- Whether the bytes `c :: rest` begin with a valid, complete UTF-8 sequence
(the well-formed byte sequences of the Unicode standard, table 3-7). -/
def beginsValid (c : Byte) (rest : List Byte) : Bool :=
  let b1 := byteAt rest 0
  let b2 := byteAt rest 1
  let b3 := byteAt rest 2
  decide (c.val ≤ 0x7F)
  || (decide (0xC2 ≤ c.val ∧ c.val ≤ 0xDF) && decide (1 ≤ rest.length) && isCont b1)
  || (decide (c.val = 0xE0) && decide (2 ≤ rest.length)
      && decide (0xA0 ≤ b1 ∧ b1 ≤ 0xBF) && isCont b2)
  || (decide (0xE1 ≤ c.val ∧ c.val ≤ 0xEC ∨ 0xEE ≤ c.val ∧ c.val ≤ 0xEF)
      && decide (2 ≤ rest.length) && isCont b1 && isCont b2)
  || (decide (c.val = 0xED) && decide (2 ≤ rest.length)
      && decide (0x80 ≤ b1 ∧ b1 ≤ 0x9F) && isCont b2)
  || (decide (c.val = 0xF0) && decide (3 ≤ rest.length)
      && decide (0x90 ≤ b1 ∧ b1 ≤ 0xBF) && isCont b2 && isCont b3)
  || (decide (0xF1 ≤ c.val ∧ c.val ≤ 0xF3) && decide (3 ≤ rest.length)
      && isCont b1 && isCont b2 && isCont b3)
  || (decide (c.val = 0xF4) && decide (3 ≤ rest.length)
      && decide (0x80 ≤ b1 ∧ b1 ≤ 0x8F) && isCont b2 && isCont b3)

/-- The split of `A ++ B` after `A` falls between two characters: some prefix
of the runes decoded from `A ++ B` covers exactly the bytes of `A`. -/
def splitOnRuneBoundary (A B : List Byte) : Bool :=
  (List.range ((A ++ B).length + 1)).any fun k =>
    (((decodeAll (A ++ B).length (A ++ B)).take k).map Prod.snd).sum == A.length

/-! ## main -/

/-- The world `main` runs in: what standard input delivers to the `k`-th call
of `count` on it, what `os.Open` returns for a file name (an error, or the
stream of the opened file), and the text `%v` prints for an error value. -/
structure Env where
  stdin : Nat → Reader
  openFile : String → Except Err Reader
  errorText : Err → String

/-- The state of `main` in its loop over the arguments: the text written to
standard output and to standard error, the running totals, the number of
files processed, and the number of calls of `count` on standard input. -/
structure MainState where
  stdout : String
  stderr : String
  totalLines : Int
  totalWords : Int
  totalBytes : Int
  filesProcessed : Int
  stdinReads : Nat
  deriving DecidableEq, Repr

/-- What a run leaves behind: the text on standard output, the text on
standard error, and the exit status. -/
structure Outcome where
  stdout : String
  stderr : String
  exitCode : Nat
  deriving DecidableEq, Repr

/-- The loop `for _, name := range args` of `main`.  The result is `none` only
if a call of `count` does not return. -/
def fileLoop (env : Env) (showL showW showC : Bool) :
    List String → MainState → Option MainState
  | [], st => some st
  | name :: rest, st =>
    -- `f = os.Stdin` for "-", otherwise `f, err = os.Open(name)`
    let opened : Except Err (Reader × MainState) :=
      if name = "-" then
        .ok (env.stdin st.stdinReads, { st with stdinReads := st.stdinReads + 1 })
      else
        match env.openFile name with
        | .error err => .error err
        | .ok f => .ok (f, st)
    match opened with
    | .error err =>
      -- report the error and continue with the next file
      fileLoop env showL showW showC rest
        { st with stderr := st.stderr ++ "my-wc: cannot opem " ++ name ++ ":"
                    ++ env.errorText err ++ "\n" }
    | .ok (f, st) =>
      match count f with
      | none => none
      | some c =>
        match c.err with
        | some err =>
          fileLoop env showL showW showC rest
            { st with stderr := st.stderr ++ "my-wc:error reading " ++ name ++ ":"
                        ++ env.errorText err ++ "\n" }
        | none =>
          fileLoop env showL showW showC rest
            { st with
              stdout := printCounts c.lines c.words c.bytesCount name showL showW showC
                st.stdout
              totalLines := st.totalLines + c.lines
              totalWords := st.totalWords + c.words
              totalBytes := st.totalBytes + c.bytesCount
              filesProcessed := st.filesProcessed + 1 }

/-- The default of `main`: if none of `-l`, `-w`, `-c` was given, all three
flags are set; otherwise they stay as given. -/
def effectiveFlags (lFlag wFlag cFlag : Bool) : Bool × Bool × Bool :=
  if !lFlag && !wFlag && !cFlag then (true, true, true) else (lFlag, wFlag, cFlag)

/-- Go `main`, from the values of the three flags and the positional arguments
that `flag.Parse` leaves (a command line that `flag.Parse` rejects does not
reach this code).  The result is `none` only if a call of `count` does not
return. -/
def main (lFlag wFlag cFlag : Bool) (args : List String) (env : Env) : Option Outcome :=
  let flags := effectiveFlags lFlag wFlag cFlag
  if args.length = 0 then
    match count (env.stdin 0) with
    | none => none
    | some c =>
      match c.err with
      | some err => some ⟨"", "my-wc " ++ env.errorText err ++ "\n", 1⟩
      | none =>
        some ⟨printCounts c.lines c.words c.bytesCount "" flags.1 flags.2.1 flags.2.2 "",
          "", 0⟩
  else
    match fileLoop env flags.1 flags.2.1 flags.2.2 args ⟨"", "", 0, 0, 0, 0, 0⟩ with
    | none => none
    | some st =>
      let stdout :=
        if st.filesProcessed > 1 then
          printCounts st.totalLines st.totalWords st.totalBytes "total"
            flags.1 flags.2.1 flags.2.2 st.stdout
        else st.stdout
      some ⟨stdout, st.stderr, 0⟩

/-- The stream the program reads for each positional argument, in the order
of the arguments: standard input for `-` (the `k`-th call on it), otherwise
what `os.Open` returns for the name. -/
def inputsOf (env : Env) : Nat → List String → List (String × Except Err Reader)
  | _, [] => []
  | k, name :: rest =>
    if name = "-" then (name, .ok (env.stdin k)) :: inputsOf env (k + 1) rest
    else (name, env.openFile name) :: inputsOf env k rest

/-- The name and the counts of an input that was opened and read without
error; `none` for an input that failed to open or to read. -/
def successOf (x : String × Except Err Reader) : Option (String × Counts) :=
  match x.2 with
  | .error _ => none
  | .ok f =>
    match count f with
    | none => none
    | some c => if c.err = none then some (x.1, c) else none

/-- The inputs of a run that were successfully processed, in the order of the
arguments, each with its counts. -/
def successes (env : Env) (args : List String) : List (String × Counts) :=
  (inputsOf env 0 args).filterMap successOf

/-- The output lines of the successfully processed inputs `xs`, in order. -/
def perFileLines (showL showW showC : Bool) (xs : List (String × Counts)) : String :=
  String.join (xs.map fun x =>
    specLine x.2.lines x.2.words x.2.bytesCount x.1 showL showW showC)

/-- The line named `total` for the successfully processed inputs `xs`: the
sum of each count over `xs`, in the format of the other lines. -/
def totalLine (showL showW showC : Bool) (xs : List (String × Counts)) : String :=
  specLine (xs.map fun x => x.2.lines).sum (xs.map fun x => x.2.words).sum
    (xs.map fun x => x.2.bytesCount).sum "total" showL showW showC

/-- The world of the two-file scenario: a file `A` holding `"a b\n"`, a file
`B` holding `"c\n"`, no other file, and an empty standard input. -/
def twoFiles : Env where
  stdin := fun _ => ofBytes []
  openFile := fun name =>
    if name = "A" then .ok (ofBytes [0x61, 0x20, 0x62, 0x0A])
    else if name = "B" then .ok (ofBytes [0x63, 0x0A])
    else .error (Err.other 2)
  errorText := fun _ => "no such file or directory"

/-- A world whose standard input delivers the bytes `bs` and ends cleanly, and
in which no file can be opened. -/
def stdinOnly (bs : List Byte) : Env where
  stdin := fun k => if k = 0 then ofBytes bs else ofBytes []
  openFile := fun _ => .error (Err.other 2)
  errorText := fun _ => "no such file or directory"

/-! ## The command line

`main` begins with `flag.Parse()`, which reads the command line `os.Args[1:]`
into the three flags and the positional arguments, or ends the run itself:
the flag set of package `flag` is created with `ExitOnError`. -/

/-- The values of the three flag variables `lFlag`, `wFlag`, `cFlag`. -/
structure Flags where
  lFlag : Bool
  wFlag : Bool
  cFlag : Bool
  deriving DecidableEq, Repr

/-- Why `flag.Parse` ends the run: the help flag `-h` or `-help` (not defined
by the program), bad flag syntax, a flag that is not defined, or an invalid
value for a boolean flag. -/
inductive FlagStop where
  | help
  | badSyntax (arg : String)
  | notDefined (name : String)
  | badBool (value name : String)
  deriving DecidableEq, Repr

/-- Go `strconv.ParseBool`. -/
def parseBool (s : String) : Option Bool :=
  if s = "1" ∨ s = "t" ∨ s = "T" ∨ s = "TRUE" ∨ s = "true" ∨ s = "True" then some true
  else if s = "0" ∨ s = "f" ∨ s = "F" ∨ s = "FALSE" ∨ s = "false" ∨ s = "False" then
    some false
  else none

/-- What `FlagSet.parseOne` finds at the head of the arguments. -/
inductive ArgStep where
  | seen (fl : Flags)
  | terminator
  | notFlag
  | fail (e : FlagStop)
  deriving DecidableEq, Repr

/-- Go `FlagSet.parseOne` on the first argument `s`, for the flag set of the
program (the boolean flags `l`, `w`, `c`): `s` sets a flag (`seen`), is the
terminator `--`, is not a flag (shorter than two bytes or not starting with
`-`), or is rejected. -/
def parseArg (fl : Flags) (s : String) : ArgStep :=
  match s.toList with
  | '-' :: c1 :: more =>
    if c1 = '-' ∧ more = [] then .terminator
    else
      -- `name := s[numMinuses:]`
      match (if c1 = '-' then more else c1 :: more) with
      | [] => .fail (.badSyntax s)
      | n0 :: ns =>
        if n0 = '-' ∨ n0 = '=' then .fail (.badSyntax s)
        else
          -- the first `=` after the first byte splits name and value
          let hasValue := ns.contains '='
          let name := String.mk (n0 :: ns.takeWhile fun ch => ch != '=')
          let value := String.mk ((ns.dropWhile fun ch => ch != '=').drop 1)
          if name = "l" ∨ name = "w" ∨ name = "c" then
            match (if hasValue then parseBool value else some true) with
            | none => .fail (.badBool value name)
            | some v =>
              if name = "l" then .seen { fl with lFlag := v }
              else if name = "w" then .seen { fl with wFlag := v }
              else .seen { fl with cFlag := v }
          else if name = "help" ∨ name = "h" then .fail .help
          else .fail (.notDefined name)
  | _ => .notFlag

/-- How `flag.Parse` ends: with the flags set and the positional arguments
`flag.Args()`, or stopping the run. -/
inductive ParseResult where
  | ok (fl : Flags) (args : List String)
  | stop (e : FlagStop)
  deriving DecidableEq, Repr

/-- Go `FlagSet.Parse`: `parseOne` is repeated while it sees a flag; the rest
of the command line is the positional arguments `flag.Args()`. -/
def flagParse (fl : Flags) : List String → ParseResult
  | [] => .ok fl []
  | s :: rest =>
    match parseArg fl s with
    | .seen fl1 => flagParse fl1 rest
    | .terminator => .ok fl rest
    | .notFlag => .ok fl (s :: rest)
    | .fail e => .stop e

/-- The program from its command line `argv` (`os.Args[1:]`): `flag.Parse`,
then the rest of `main`.  When `flag.Parse` stops the run it writes
`flagText e` (its message and the usage) to standard error and exits, with
status 0 for the help flag and status 2 otherwise. -/
def run (argv : List String) (env : Env) (flagText : FlagStop → String) : Option Outcome :=
  match flagParse ⟨false, false, false⟩ argv with
  | .stop .help => some ⟨"", flagText .help, 0⟩
  | .stop e => some ⟨"", flagText e, 2⟩
  | .ok fl args => main fl.lFlag fl.wFlag fl.cFlag args env

/-- The text package `flag` writes to standard error for the program `my-wc`
when it meets a flag that is not defined: the message and the usage. -/
def notDefinedText (name : String) : String :=
  "flag provided but not defined: -" ++ name ++ "\nUsage of my-wc:\n"
    ++ "  -c\tprint the byte counts\n  -l\tprint the newline counts\n"
    ++ "  -w\tprint the word counts\n"

/-! ## The decoder -/

theorem first_cases (b : Nat) :
    (b < 0x80 ∧ first b = 0xF0) ∨
    ((0x80 ≤ b ∧ b < 0xC2 ∨ 0xF5 ≤ b) ∧ first b = 0xF1) ∨
    (0xC2 ≤ b ∧ b < 0xE0 ∧ first b = 0x02) ∨
    (b = 0xE0 ∧ first b = 0x13) ∨
    ((0xE1 ≤ b ∧ b < 0xED ∨ b = 0xEE ∨ b = 0xEF) ∧ first b = 0x03) ∨
    (b = 0xED ∧ first b = 0x23) ∨
    (b = 0xF0 ∧ first b = 0x34) ∨
    (0xF1 ≤ b ∧ b < 0xF4 ∧ first b = 0x04) ∨
    (b = 0xF4 ∧ first b = 0x44) := by
  by_cases h1 : b < 0x80
  · exact Or.inl ⟨h1, by rw [first, if_pos h1]⟩
  by_cases h2 : b < 0xC2
  · exact Or.inr (Or.inl ⟨Or.inl ⟨by omega, h2⟩, by rw [first, if_neg h1, if_pos h2]⟩)
  by_cases h3 : b < 0xE0
  · exact Or.inr (Or.inr (Or.inl ⟨by omega, h3, by rw [first, if_neg h1, if_neg h2, if_pos h3]⟩))
  by_cases h4 : b = 0xE0
  · exact Or.inr (Or.inr (Or.inr (Or.inl ⟨h4,
      by rw [first, if_neg h1, if_neg h2, if_neg h3, if_pos h4]⟩)))
  by_cases h5 : b < 0xED
  · exact Or.inr (Or.inr (Or.inr (Or.inr (Or.inl ⟨Or.inl ⟨by omega, h5⟩,
      by rw [first, if_neg h1, if_neg h2, if_neg h3, if_neg h4, if_pos h5]⟩))))
  by_cases h6 : b = 0xED
  · exact Or.inr (Or.inr (Or.inr (Or.inr (Or.inr (Or.inl ⟨h6,
      by rw [first, if_neg h1, if_neg h2, if_neg h3, if_neg h4, if_neg h5, if_pos h6]⟩)))))
  by_cases h7 : b < 0xF0
  · exact Or.inr (Or.inr (Or.inr (Or.inr (Or.inl ⟨Or.inr (by omega),
      by rw [first, if_neg h1, if_neg h2, if_neg h3, if_neg h4, if_neg h5, if_neg h6,
        if_pos h7]⟩))))
  by_cases h8 : b = 0xF0
  · exact Or.inr (Or.inr (Or.inr (Or.inr (Or.inr (Or.inr (Or.inl ⟨h8,
      by rw [first, if_neg h1, if_neg h2, if_neg h3, if_neg h4, if_neg h5, if_neg h6,
        if_neg h7, if_pos h8]⟩))))))
  by_cases h9 : b < 0xF4
  · exact Or.inr (Or.inr (Or.inr (Or.inr (Or.inr (Or.inr (Or.inr (Or.inl ⟨by omega, h9,
      by rw [first, if_neg h1, if_neg h2, if_neg h3, if_neg h4, if_neg h5, if_neg h6,
        if_neg h7, if_neg h8, if_pos h9]⟩)))))))
  by_cases h10 : b = 0xF4
  · exact Or.inr (Or.inr (Or.inr (Or.inr (Or.inr (Or.inr (Or.inr (Or.inr ⟨h10,
      by rw [first, if_neg h1, if_neg h2, if_neg h3, if_neg h4, if_neg h5, if_neg h6,
        if_neg h7, if_neg h8, if_neg h9, if_pos h10]⟩)))))))
  · exact Or.inr (Or.inl ⟨Or.inr (by omega),
      by rw [first, if_neg h1, if_neg h2, if_neg h3, if_neg h4, if_neg h5, if_neg h6,
        if_neg h7, if_neg h8, if_neg h9, if_neg h10]⟩)

theorem shl_or (a b k : Nat) (hb : b < 2 ^ k) : (a <<< k) ||| b = a * 2 ^ k + b := by
  rw [Nat.shiftLeft_eq, Nat.mul_comm, ← Nat.mul_add_lt_is_or hb]

theorem and_mask (x k : Nat) : x &&& (2 ^ k - 1) = x % 2 ^ k :=
  Nat.and_pow_two_sub_one_eq_mod x k

theorem rune2_eq (c b1 : Nat) :
    ((c &&& 0x1F) <<< 6) ||| (b1 &&& 0x3F) = c % 32 * 64 + b1 % 64 := by
  have h1 : c &&& 0x1F = c % 32 := and_mask c 5
  have h2 : b1 &&& 0x3F = b1 % 64 := and_mask b1 6
  rw [h1, h2, shl_or (c % 32) (b1 % 64) 6 (by omega)]
  omega

theorem rune3_eq (c b1 b2 : Nat) :
    ((c &&& 0x0F) <<< 12) ||| ((b1 &&& 0x3F) <<< 6) ||| (b2 &&& 0x3F)
      = c % 16 * 4096 + b1 % 64 * 64 + b2 % 64 := by
  have h0 : c &&& 0x0F = c % 16 := and_mask c 4
  have h1 : b1 &&& 0x3F = b1 % 64 := and_mask b1 6
  have h2 : b2 &&& 0x3F = b2 % 64 := and_mask b2 6
  have e1 : ((c % 16) <<< 12) ||| ((b1 % 64) <<< 6) = (c % 16 * 64 + b1 % 64) <<< 6 := by
    rw [Nat.shiftLeft_eq (b1 % 64), shl_or _ (b1 % 64 * 2 ^ 6) 12 (by omega), Nat.shiftLeft_eq]
    omega
  rw [h0, h1, h2, e1, shl_or _ (b2 % 64) 6 (by omega)]
  omega

theorem rune4_eq (c b1 b2 b3 : Nat) :
    ((c &&& 0x07) <<< 18) ||| ((b1 &&& 0x3F) <<< 12) ||| ((b2 &&& 0x3F) <<< 6) ||| (b3 &&& 0x3F)
      = c % 8 * 262144 + b1 % 64 * 4096 + b2 % 64 * 64 + b3 % 64 := by
  have h0 : c &&& 0x07 = c % 8 := and_mask c 3
  have h1 : b1 &&& 0x3F = b1 % 64 := and_mask b1 6
  have h2 : b2 &&& 0x3F = b2 % 64 := and_mask b2 6
  have h3 : b3 &&& 0x3F = b3 % 64 := and_mask b3 6
  have e1 : ((c % 8) <<< 18) ||| ((b1 % 64) <<< 12) = (c % 8 * 64 + b1 % 64) <<< 12 := by
    rw [Nat.shiftLeft_eq (b1 % 64), shl_or _ (b1 % 64 * 2 ^ 12) 18 (by omega), Nat.shiftLeft_eq]
    omega
  have e2 : ((c % 8 * 64 + b1 % 64) <<< 12) ||| ((b2 % 64) <<< 6)
      = ((c % 8 * 64 + b1 % 64) * 64 + b2 % 64) <<< 6 := by
    rw [Nat.shiftLeft_eq (b2 % 64), shl_or _ (b2 % 64 * 2 ^ 6) 12 (by omega), Nat.shiftLeft_eq]
    omega
  rw [h0, h1, h2, h3, e1, e2, shl_or _ (b3 % 64) 6 (by omega)]
  omega

theorem decodeRune_lit :
    ((0x02 &&& 7 : Nat) = 2) ∧ ((0x13 &&& 7 : Nat) = 3) ∧ ((0x03 &&& 7 : Nat) = 3) ∧
    ((0x23 &&& 7 : Nat) = 3) ∧ ((0x34 &&& 7 : Nat) = 4) ∧ ((0x04 &&& 7 : Nat) = 4) ∧
    ((0x44 &&& 7 : Nat) = 4) := by decide

/-- The five outcomes of reading a rune at the head of `c :: rest`. -/
theorem nextRune_cases (c : Byte) (rest : List Byte) :
    (c.val < 0x80 ∧ nextRune c rest = (c.val, 1)) ∨
    (0x80 ≤ c.val ∧ nextRune c rest = (RuneError, 1)) ∨
    (1 ≤ rest.length ∧ 0xC2 ≤ c.val ∧ c.val ≤ 0xDF ∧
      0x80 ≤ byteAt rest 0 ∧ byteAt rest 0 ≤ 0xBF ∧
      nextRune c rest = (c.val % 32 * 64 + byteAt rest 0 % 64, 2)) ∨
    (2 ≤ rest.length ∧ 0xE0 ≤ c.val ∧ c.val ≤ 0xEF ∧
      0x80 ≤ byteAt rest 0 ∧ byteAt rest 0 ≤ 0xBF ∧ (c.val = 0xE0 → 0xA0 ≤ byteAt rest 0) ∧
      (c.val = 0xED → byteAt rest 0 ≤ 0x9F) ∧ 0x80 ≤ byteAt rest 1 ∧ byteAt rest 1 ≤ 0xBF ∧
      nextRune c rest =
        (c.val % 16 * 4096 + byteAt rest 0 % 64 * 64 + byteAt rest 1 % 64, 3)) ∨
    (3 ≤ rest.length ∧ 0xF0 ≤ c.val ∧ c.val ≤ 0xF4 ∧
      0x80 ≤ byteAt rest 0 ∧ byteAt rest 0 ≤ 0xBF ∧ (c.val = 0xF0 → 0x90 ≤ byteAt rest 0) ∧
      (c.val = 0xF4 → byteAt rest 0 ≤ 0x8F) ∧ 0x80 ≤ byteAt rest 1 ∧ byteAt rest 1 ≤ 0xBF ∧
      0x80 ≤ byteAt rest 2 ∧ byteAt rest 2 ≤ 0xBF ∧
      nextRune c rest =
        (c.val % 8 * 262144 + byteAt rest 0 % 64 * 4096 + byteAt rest 1 % 64 * 64
          + byteAt rest 2 % 64, 4)) := by
  obtain ⟨l2, l13, l3, l23, l34, l4, l44⟩ := decodeRune_lit
  have hc := c.isLt
  unfold nextRune
  by_cases h0 : c.val < 0x80
  · left; exact ⟨h0, by rw [if_neg (by simp [RuneSelf]; omega)]⟩
  right
  rw [if_pos (by simp [RuneSelf]; omega)]
  unfold decodeRune
  rw [if_neg (by simp)]
  have e0 : byteAt (c :: rest) 0 = c.val := rfl
  have e1 : byteAt (c :: rest) 1 = byteAt rest 0 := rfl
  have e2 : byteAt (c :: rest) 2 = byteAt rest 1 := rfl
  have e3 : byteAt (c :: rest) 3 = byteAt rest 2 := rfl
  simp only [e0, e1, e2, e3, List.length_cons, rune2_eq, rune3_eq, rune4_eq]
  rcases first_cases c.val with ⟨h, hf⟩ | ⟨h, hf⟩ | ⟨h, h', hf⟩ | ⟨h, hf⟩ | ⟨h, hf⟩ |
    ⟨h, hf⟩ | ⟨h, hf⟩ | ⟨h, h', hf⟩ | ⟨h, hf⟩
  · omega
  · left; simp [hf]; omega
  all_goals
    simp only [hf, l2, l13, l3, l23, l34, l4, l44, acceptRanges, locb, hicb,
      Nat.reduceShiftRight, Nat.reduceLeDiff, ge_iff_le, if_false, Nat.reduceLT]
    split_ifs
    all_goals
      first
      | exact absurd ‹_› (by omega)
      | exact Or.inl ⟨by omega, by with_reducible rfl⟩
      | exact Or.inr (Or.inl ⟨by omega, by omega, by omega, by omega, by omega,
          by with_reducible rfl⟩)
      | exact Or.inr (Or.inr (Or.inl ⟨by omega, by omega, by omega, by omega, by omega,
          by omega, by omega, by omega, by omega, by with_reducible rfl⟩))
      | exact Or.inr (Or.inr (Or.inr ⟨by omega, by omega, by omega, by omega, by omega,
          by omega, by omega, by omega, by omega, by omega, by omega, by with_reducible rfl⟩))

/-- The rune read at the head of `c :: rest`, by the shape of the encoding
there: ASCII, a well-formed sequence of two, three or four bytes, or anything
else, read as one byte giving `RuneError`. -/
theorem nextRune_eq (c : Byte) (rest : List Byte) :
    nextRune c rest =
      if c.val < 0x80 then (c.val, 1)
      else if 1 ≤ rest.length ∧ 0xC2 ≤ c.val ∧ c.val ≤ 0xDF ∧
          0x80 ≤ byteAt rest 0 ∧ byteAt rest 0 ≤ 0xBF then
        (c.val % 32 * 64 + byteAt rest 0 % 64, 2)
      else if 2 ≤ rest.length ∧ 0xE0 ≤ c.val ∧ c.val ≤ 0xEF ∧
          0x80 ≤ byteAt rest 0 ∧ byteAt rest 0 ≤ 0xBF ∧ (c.val = 0xE0 → 0xA0 ≤ byteAt rest 0) ∧
          (c.val = 0xED → byteAt rest 0 ≤ 0x9F) ∧ 0x80 ≤ byteAt rest 1 ∧ byteAt rest 1 ≤ 0xBF then
        (c.val % 16 * 4096 + byteAt rest 0 % 64 * 64 + byteAt rest 1 % 64, 3)
      else if 3 ≤ rest.length ∧ 0xF0 ≤ c.val ∧ c.val ≤ 0xF4 ∧
          0x80 ≤ byteAt rest 0 ∧ byteAt rest 0 ≤ 0xBF ∧ (c.val = 0xF0 → 0x90 ≤ byteAt rest 0) ∧
          (c.val = 0xF4 → byteAt rest 0 ≤ 0x8F) ∧ 0x80 ≤ byteAt rest 1 ∧ byteAt rest 1 ≤ 0xBF ∧
          0x80 ≤ byteAt rest 2 ∧ byteAt rest 2 ≤ 0xBF then
        (c.val % 8 * 262144 + byteAt rest 0 % 64 * 4096 + byteAt rest 1 % 64 * 64
          + byteAt rest 2 % 64, 4)
      else (RuneError, 1) := by
  obtain ⟨l2, l13, l3, l23, l34, l4, l44⟩ := decodeRune_lit
  have hc := c.isLt
  unfold nextRune
  by_cases h0 : c.val < 0x80
  · rw [if_neg (by simp [RuneSelf]; omega), if_pos h0]
  rw [if_pos (by simp [RuneSelf]; omega), if_neg h0]
  unfold decodeRune
  rw [if_neg (by simp)]
  have e0 : byteAt (c :: rest) 0 = c.val := rfl
  have e1 : byteAt (c :: rest) 1 = byteAt rest 0 := rfl
  have e2 : byteAt (c :: rest) 2 = byteAt rest 1 := rfl
  have e3 : byteAt (c :: rest) 3 = byteAt rest 2 := rfl
  simp only [e0, e1, e2, e3, List.length_cons, rune2_eq, rune3_eq, rune4_eq]
  rcases first_cases c.val with ⟨h, hf⟩ | ⟨h, hf⟩ | ⟨h, h', hf⟩ | ⟨h, hf⟩ | ⟨h, hf⟩ |
    ⟨h, hf⟩ | ⟨h, hf⟩ | ⟨h, h', hf⟩ | ⟨h, hf⟩
  · omega
  · have hx : (241 % 2 = 1) := by decide
    simp only [hf, ge_iff_le, Nat.reduceLeDiff, if_true, hx]
    split_ifs
    all_goals
      first
      | (with_reducible rfl)
      | (exfalso; omega)
  all_goals
    simp only [hf, l2, l13, l3, l23, l34, l4, l44, acceptRanges, locb, hicb,
      Nat.reduceShiftRight, Nat.reduceLeDiff, ge_iff_le, if_false, Nat.reduceLT]
    split_ifs
    all_goals
      first
      | (with_reducible rfl)
      | (exfalso; omega)

/-- Appending bytes after `c :: rest` changes the rune read at `c` only when
`c :: rest` is a truncated encoding whose bytes after `c` are all continuation
bytes and the appended bytes start with a continuation byte. -/
theorem nextRune_append_cases (c : Byte) (rest q : List Byte) :
    nextRune c (rest ++ q) = nextRune c rest ∨
    (rest.length ≤ 2 ∧ 0xC2 ≤ c.val ∧ (∀ b ∈ rest, 0x80 ≤ b.val ∧ b.val ≤ 0xBF) ∧
      nextRune c rest = (RuneError, 1) ∧
      ∃ d q1, q = d :: q1 ∧ 0x80 ≤ d.val ∧ d.val ≤ 0xBF) := by
  cases q with
  | nil => left; rw [List.append_nil]
  | cons d q1 =>
    rw [nextRune_eq c (rest ++ d :: q1), nextRune_eq c rest]
    match rest with
    | [] =>
      simp only [byteAt, List.getD_cons_zero, List.getD_cons_succ, List.length_cons,
        List.nil_append, List.cons_append, List.length_nil, List.getD_nil, Fin.val_zero]
      split_ifs
      all_goals
        first
        | exact Or.inl (by with_reducible rfl)
        | (exfalso; omega)
        | exact Or.inr ⟨by simp, by omega, by simp, rfl, d, q1, rfl, by omega, by omega⟩
    | [b1] =>
      simp only [byteAt, List.getD_cons_zero, List.getD_cons_succ, List.length_cons,
        List.nil_append, List.cons_append, List.length_nil, List.getD_nil, Fin.val_zero]
      split_ifs
      all_goals
        first
        | exact Or.inl (by with_reducible rfl)
        | (exfalso; omega)
        | exact Or.inr ⟨by simp, by omega, by simp; omega, rfl, d, q1, rfl, by omega, by omega⟩
    | [b1, b2] =>
      simp only [byteAt, List.getD_cons_zero, List.getD_cons_succ, List.length_cons,
        List.nil_append, List.cons_append, List.length_nil, List.getD_nil, Fin.val_zero]
      split_ifs
      all_goals
        first
        | exact Or.inl (by with_reducible rfl)
        | (exfalso; omega)
        | exact Or.inr ⟨by simp, by omega, by simp; omega, rfl, d, q1, rfl, by omega, by omega⟩
    | b1 :: b2 :: b3 :: tl =>
      left
      simp only [byteAt, List.getD_cons_zero, List.getD_cons_succ, List.length_cons,
        List.nil_append, List.cons_append, List.length_append]
      split_ifs
      all_goals
        first
        | (with_reducible rfl)
        | (exfalso; omega)

theorem exists_cons1 {α : Type} (l : List α) (h : 1 ≤ l.length) : ∃ a tl, l = a :: tl := by
  cases l with
  | nil => simp at h
  | cons a tl => exact ⟨a, tl, rfl⟩

theorem exists_cons2 {α : Type} (l : List α) (h : 2 ≤ l.length) :
    ∃ a b tl, l = a :: b :: tl := by
  obtain ⟨a, tl, rfl⟩ := exists_cons1 l (by omega)
  obtain ⟨b, tl, rfl⟩ := exists_cons1 tl (by simp only [List.length_cons] at h; omega)
  exact ⟨a, b, tl, rfl⟩

theorem exists_cons3 {α : Type} (l : List α) (h : 3 ≤ l.length) :
    ∃ a b c tl, l = a :: b :: c :: tl := by
  obtain ⟨a, b, tl, rfl⟩ := exists_cons2 l (by omega)
  obtain ⟨c, tl, rfl⟩ := exists_cons1 tl (by simp only [List.length_cons] at h; omega)
  exact ⟨a, b, c, tl, rfl⟩

theorem nextRune_size (c : Byte) (rest : List Byte) :
    1 ≤ (nextRune c rest).2 ∧ (nextRune c rest).2 ≤ rest.length + 1 := by
  rcases nextRune_cases c rest with ⟨_, h⟩ | ⟨_, h⟩ | ⟨hl, _, _, _, _, h⟩ |
    ⟨hl, _, _, _, _, _, _, _, _, h⟩ | ⟨hl, _, _, _, _, _, _, _, _, _, _, h⟩ <;>
    rw [h] <;> simp <;> omega

theorem length_drop_nextRune (c : Byte) (rest : List Byte) :
    ((c :: rest).drop (nextRune c rest).2).length + (nextRune c rest).2 = rest.length + 1 := by
  have := nextRune_size c rest
  simp only [List.length_drop, List.length_cons]
  omega

/-- Induction along the runes of a byte sequence. -/
theorem decode_induction {P : List Byte → Prop} (hnil : P [])
    (hcons : ∀ c rest, P ((c :: rest).drop (nextRune c rest).2) → P (c :: rest)) :
    ∀ p, P p := by
  intro p
  generalize h : p.length = n
  induction n using Nat.strong_induction_on generalizing p with
  | _ n ih =>
    cases p with
    | nil => exact hnil
    | cons c rest =>
      apply hcons
      have := length_drop_nextRune c rest
      have := nextRune_size c rest
      exact ih _ (by simp only [List.length_cons] at h; omega) _ rfl

theorem decodeAll_fuel (fuel : Nat) (p : List Byte) (h : p.length ≤ fuel) :
    decodeAll fuel p = decodeAll p.length p := by
  induction fuel using Nat.strong_induction_on generalizing p with
  | _ fuel ih =>
    cases p with
    | nil => cases fuel <;> rfl
    | cons c rest =>
      cases fuel with
      | zero => simp at h
      | succ f =>
        have h1 := length_drop_nextRune c rest
        have h2 := nextRune_size c rest
        simp only [List.length_cons] at h
        simp only [decodeAll, List.length_cons]
        rw [ih f (by omega) _ (by omega), ih rest.length (by omega) _ (by omega)]

theorem runes_nil : runes [] = [] := rfl

theorem runes_cons (c : Byte) (rest : List Byte) :
    runes (c :: rest) = (nextRune c rest).1 :: runes ((c :: rest).drop (nextRune c rest).2) := by
  have h1 := length_drop_nextRune c rest
  have h2 := nextRune_size c rest
  simp only [runes, List.length_cons, decodeAll, List.map_cons]
  rw [decodeAll_fuel rest.length _ (by omega)]

theorem isSpace_RuneError : isSpace RuneError = false := by decide

theorem lineFeeds_cons (c : Byte) (rest : List Byte) :
    lineFeeds (c :: rest) = (if c.val = 0x0A then 1 else 0) + lineFeeds rest := by
  simp only [lineFeeds, List.countP_cons, beq_iff_eq]
  omega

theorem lineFeeds_nextRune (c : Byte) (rest : List Byte) :
    lineFeeds (c :: rest) = (if (nextRune c rest).1 = 0x0A then 1 else 0)
      + lineFeeds ((c :: rest).drop (nextRune c rest).2) := by
  rcases nextRune_cases c rest with ⟨_, h⟩ | ⟨_, h⟩ | ⟨hl, _, _, _, _, h⟩ |
    ⟨hl, _, _, _, _, _, _, _, _, h⟩ | ⟨hl, _, _, _, _, _, _, _, _, _, _, h⟩
  · rw [h, lineFeeds_cons]; simp
  · rw [h, lineFeeds_cons]
    rw [if_neg (by omega), if_neg (by decide)]; simp
  · obtain ⟨b1, tl, rfl⟩ := exists_cons1 rest hl
    simp only [byteAt, List.getD_cons_zero] at *
    rw [h, lineFeeds_cons, lineFeeds_cons]
    rw [if_neg (by omega), if_neg (by omega), if_neg (by dsimp only; omega)]; simp
  · obtain ⟨b1, b2, tl, rfl⟩ := exists_cons2 rest hl
    simp only [byteAt, List.getD_cons_zero, List.getD_cons_succ] at *
    rw [h, lineFeeds_cons, lineFeeds_cons, lineFeeds_cons]
    rw [if_neg (by omega), if_neg (by omega), if_neg (by omega),
      if_neg (by dsimp only; omega)]; simp
  · obtain ⟨b1, b2, b3, tl, rfl⟩ := exists_cons3 rest hl
    simp only [byteAt, List.getD_cons_zero, List.getD_cons_succ] at *
    rw [h, lineFeeds_cons, lineFeeds_cons, lineFeeds_cons, lineFeeds_cons]
    rw [if_neg (by omega), if_neg (by omega), if_neg (by omega), if_neg (by omega),
      if_neg (by dsimp only; omega)]; simp

/-! ## The loop of count -/

/-- The value `count` returns as its error: `nil` after `io.EOF`. -/
theorem readRune_nil (e : Err) : readRune ⟨[], e⟩ = (0, 0, some e, ⟨[], e⟩) := rfl

theorem readRune_cons (c : Byte) (rest : List Byte) (e : Err) :
    readRune ⟨c :: rest, e⟩ = ((nextRune c rest).1, (nextRune c rest).2, none,
      ⟨(c :: rest).drop (nextRune c rest).2, e⟩) := rfl

/-- The loop of `count`, given enough fuel, ends with the line feeds, word
starts and length of the bytes left added to the counters. -/
theorem countLoop_eq (p : List Byte) : ∀ (e : Err) (fuel : Nat) (lines words bytesCount : Int)
    (inWord : Bool), p.length < fuel →
    countLoop fuel ⟨p, e⟩ lines words bytesCount inWord =
      some ⟨lines + lineFeeds p, words + wordsFrom inWord (runes p), bytesCount + p.length,
        if e = Err.EOF then none else some e⟩ := by
  induction p using decode_induction with
  | hnil =>
    intro e fuel lines words bytesCount inWord hf
    cases fuel with
    | zero => simp at hf
    | succ f =>
      simp only [countLoop, readRune_nil]
      split_ifs <;> simp [lineFeeds, runes_nil, wordsFrom]
  | hcons c rest ih =>
    intro e fuel lines words bytesCount inWord hf
    cases fuel with
    | zero => simp at hf
    | succ f =>
      have h1 := length_drop_nextRune c rest
      have h2 := nextRune_size c rest
      simp only [List.length_cons] at hf
      have hlen : ((c :: rest).drop (nextRune c rest).2).length < f := by omega
      have hlf := lineFeeds_nextRune c rest
      have hA : ∀ l : Int, (if (nextRune c rest).1 = 0x0A then l + 1 else l)
          + (lineFeeds ((c :: rest).drop (nextRune c rest).2) : Int)
          = l + (lineFeeds (c :: rest) : Int) := by
        intro l
        rw [hlf]
        split_ifs <;> push_cast <;> omega
      have hC : bytesCount + ((nextRune c rest).2 : Int)
          + (((c :: rest).drop (nextRune c rest).2).length : Int)
          = bytesCount + ((c :: rest).length : Int) := by
        simp only [List.length_cons]
        omega
      simp only [countLoop, readRune_cons]
      rw [runes_cons, wordsFrom]
      by_cases hsp : isSpace (nextRune c rest).1 = true
      · rw [if_pos hsp, if_pos hsp, ih _ _ _ _ _ _ hlen, hA, hC]
      · rw [if_neg hsp, if_neg hsp]
        cases inWord with
        | false =>
          rw [if_pos (by rfl), ih _ _ _ _ _ _ hlen, hA, hC]
          simp only [Bool.false_eq_true, if_false]
          push_cast
          rw [Int.add_assoc]
        | true =>
          rw [if_neg (by simp), ih _ _ _ _ _ _ hlen, hA, hC]
          simp

/-! ## Decoding a concatenation -/

theorem runes_eq_nil (p : List Byte) : runes p = [] ↔ p = [] := by
  cases p with
  | nil => simp [runes_nil]
  | cons c rest => simp [runes_cons]

theorem drop_nextRune_append (c : Byte) (rest q : List Byte) :
    (c :: (rest ++ q)).drop (nextRune c rest).2 = (c :: rest).drop (nextRune c rest).2 ++ q := by
  have h := nextRune_size c rest
  rw [← List.cons_append]
  exact List.drop_append_of_le_length (by simp only [List.length_cons]; omega)

/-- A byte in the continuation range read as a first byte gives `RuneError`. -/
theorem nextRune_cont (c : Byte) (rest : List Byte) (h1 : 0x80 ≤ c.val) (h2 : c.val ≤ 0xBF) :
    nextRune c rest = (RuneError, 1) := by
  rw [nextRune_eq]
  rw [if_neg (by omega), if_neg (by omega), if_neg (by omega), if_neg (by omega)]

theorem runes_of_cont (p : List Byte) (h : ∀ b ∈ p, 0x80 ≤ b.val ∧ b.val ≤ 0xBF) :
    ∀ r ∈ runes p, r = RuneError := by
  induction p with
  | nil => simp [runes_nil]
  | cons c rest ih =>
    have hc := h c (List.mem_cons_self _ _)
    rw [runes_cons, nextRune_cont c rest hc.1 hc.2]
    intro r hr
    simp only [List.drop_succ_cons, List.drop_zero, List.mem_cons] at hr
    rcases hr with rfl | hr
    · rfl
    · exact ih (fun b hb => h b (List.mem_cons_of_mem _ hb)) r hr

/-- Decoding distributes over a concatenation whose second part does not start
with a continuation byte. -/
theorem runes_append_of_head (A B : List Byte)
    (hB : ∀ d q1, B = d :: q1 → ¬ (0x80 ≤ d.val ∧ d.val ≤ 0xBF)) :
    runes (A ++ B) = runes A ++ runes B := by
  induction A using decode_induction with
  | hnil => simp [runes_nil]
  | hcons c rest ih =>
    rcases nextRune_append_cases c rest B with hs | ⟨_, _, _, _, d, q1, hq, h1, h2⟩
    · rw [List.cons_append, runes_cons, hs, drop_nextRune_append, ih, runes_cons c rest,
        List.cons_append]
    · exact absurd ⟨h1, h2⟩ (hB d q1 hq)

/-- Decoding distributes over a concatenation whose first part ends in a
whitespace character. -/
theorem runes_append_of_last (A B : List Byte)
    (hA : ∃ r, (runes A).getLast? = some r ∧ isSpace r = true) :
    runes (A ++ B) = runes A ++ runes B := by
  induction A using decode_induction with
  | hnil => simp [runes_nil] at hA
  | hcons c rest ih =>
    obtain ⟨r, hr, hsp⟩ := hA
    rcases nextRune_append_cases c rest B with hs | ⟨_, _, hcont, he, _⟩
    · rw [List.cons_append, runes_cons, hs, drop_nextRune_append, runes_cons c rest,
        List.cons_append]
      congr 1
      by_cases hnil : (c :: rest).drop (nextRune c rest).2 = []
      · rw [hnil, runes_nil]; rfl
      · apply ih
        refine ⟨r, ?_, hsp⟩
        rw [runes_cons] at hr
        have hne : runes ((c :: rest).drop (nextRune c rest).2) ≠ [] :=
          fun h => hnil ((runes_eq_nil _).1 h)
        obtain ⟨x, xs, hx⟩ := List.exists_cons_of_ne_nil hne
        rw [hx] at hr ⊢
        rwa [List.getLast?_cons_cons] at hr
    · exfalso
      have hmem : r ∈ runes (c :: rest) := List.mem_of_getLast?_eq_some hr
      rw [runes_cons, he] at hmem
      simp only [List.drop_succ_cons, List.drop_zero, List.mem_cons] at hmem
      have : r = RuneError := by
        rcases hmem with h | h
        · exact h
        · exact runes_of_cont rest hcont r h
      rw [this, isSpace_RuneError] at hsp
      exact Bool.noConfusion hsp

/-! ## Word starts -/

theorem wordsFrom_append (b : Bool) (xs ys : List Nat) :
    wordsFrom b (xs ++ ys) = wordsFrom b xs + wordsFrom (inWordAfter b xs) ys := by
  induction xs generalizing b with
  | nil => simp [wordsFrom, inWordAfter]
  | cons x xs ih =>
    rw [List.cons_append, wordsFrom, wordsFrom, inWordAfter]
    by_cases h : isSpace x = true
    · rw [if_pos h, if_pos h, ih]; simp [h]
    · rw [if_neg h, if_neg h, ih]; simp [h]; omega

theorem inWordAfter_eq (b : Bool) (xs : List Nat) :
    inWordAfter b xs = match xs.getLast? with
      | none => b
      | some r => !isSpace r := by
  induction xs generalizing b with
  | nil => rfl
  | cons x xs ih =>
    rw [inWordAfter, ih]
    cases xs with
    | nil => rfl
    | cons y ys =>
      rw [List.getLast?_cons_cons, List.getLast?_eq_getLast (y :: ys) (List.cons_ne_nil _ _)]

theorem wordsFrom_true_le (xs : List Nat) :
    wordsFrom false xs = wordsFrom true xs +
      match xs.head? with
      | none => 0
      | some r => if isSpace r then 0 else 1 := by
  cases xs with
  | nil => rfl
  | cons x xs =>
    rw [wordsFrom, wordsFrom, List.head?_cons]
    by_cases h : isSpace x = true
    · simp [h]
    · simp [h]; omega

theorem wordsFrom_all_space (b : Bool) (xs : List Nat) (h : ∀ r ∈ xs, isSpace r = true) :
    wordsFrom b xs = 0 := by
  induction xs generalizing b with
  | nil => rfl
  | cons x xs ih =>
    rw [wordsFrom, if_pos (h x (List.mem_cons_self _ _))]
    exact ih _ (fun r hr => h r (List.mem_cons_of_mem _ hr))

theorem wordsFrom_true_no_space (xs : List Nat) (h : ∀ r ∈ xs, isSpace r = false) :
    wordsFrom true xs = 0 := by
  induction xs with
  | nil => rfl
  | cons x xs ih =>
    rw [wordsFrom, if_neg (by simp [h x (List.mem_cons_self _ _)])]
    simp [ih (fun r hr => h r (List.mem_cons_of_mem _ hr))]

theorem wordsFrom_no_space (xs : List Nat) (hne : xs ≠ [])
    (h : ∀ r ∈ xs, isSpace r = false) : wordsFrom false xs = 1 := by
  cases xs with
  | nil => exact absurd rfl hne
  | cons x xs =>
    rw [wordsFrom, if_neg (by simp [h x (List.mem_cons_self _ _)])]
    simp [wordsFrom_true_no_space xs (fun r hr => h r (List.mem_cons_of_mem _ hr))]

/-- The word starts counted by the scanner are the positions that hold a
non-whitespace character first in the sequence or preceded by whitespace. -/
theorem wordsFrom_eq_countP (b : Bool) (xs : List Nat) :
    wordsFrom b xs = (List.range xs.length).countP fun i =>
      !isSpace (xs.getD i 0) && (if i = 0 then !b else isSpace (xs.getD (i - 1) 0)) := by
  induction xs generalizing b with
  | nil => rfl
  | cons x xs ih =>
    rw [wordsFrom, List.length_cons, List.range_succ_eq_map, List.countP_cons, List.countP_map]
    have hfun : ((fun i => !isSpace ((x :: xs).getD i 0) &&
          (if i = 0 then !b else isSpace ((x :: xs).getD (i - 1) 0))) ∘ Nat.succ)
        = fun i => !isSpace (xs.getD i 0) &&
          (if i = 0 then !(!isSpace x) else isSpace (xs.getD (i - 1) 0)) := by
      funext i
      cases i with
      | zero => simp
      | succ j => simp
    rw [hfun]
    by_cases hx : isSpace x = true
    · rw [if_pos hx, ih]
      simp [hx]
    · rw [if_neg hx, ih]
      simp only [Bool.not_eq_true] at hx
      cases b <;> simp [hx]
      omega

theorem wordsFrom_false_eq_wordStarts (xs : List Nat) : wordsFrom false xs = wordStarts xs := by
  rw [wordsFrom_eq_countP, wordStarts]
  congr 1
  funext i
  simp only [isWordStart]
  cases i with
  | zero => simp
  | succ j => simp

/-! ## Formatting -/

theorem digitChar_eq (d : Nat) (h : d < 10) : Nat.digitChar d = Char.ofNat (48 + d) := by
  interval_cases d <;> rfl

theorem fmtDigits_eq (fuel u : Nat) (buf : List Char) (h : u < fuel) :
    fmtDigits fuel u buf = Nat.toDigitsCore 10 fuel u buf := by
  induction fuel generalizing u buf with
  | zero => omega
  | succ f ih =>
    rw [fmtDigits, Nat.toDigitsCore]
    by_cases hu : u ≥ 10
    · have h1 : u / 10 ≠ 0 := by omega
      have h2 : u - u / 10 * 10 = u % 10 := by omega
      rw [if_pos hu, h2, ih _ _ (by omega)]
      simp only [h1, if_false, digitChar_eq (u % 10) (Nat.mod_lt _ (by decide))]
    · have h1 : u / 10 = 0 := by omega
      have h2 : u % 10 = u := by omega
      rw [if_neg hu]
      simp only [h1, if_true, h2, digitChar_eq u (by omega)]

theorem fmtDigits_repr (u : Nat) : String.mk (fmtDigits (u + 1) u []) = toString u := by
  rw [fmtDigits_eq _ _ _ (Nat.lt_succ_self u)]
  rfl

theorem mk_append (a b : List Char) : String.mk a ++ String.mk b = String.mk (a ++ b) := rfl

theorem fmtInt8_eq (n : Int) : fmtInt8 n = rightJustify 8 (toString n) := by
  unfold fmtInt8 rightJustify
  cases n with
  | ofNat m =>
    have h1 : ¬ (Int.ofNat m < 0) := by simp
    have h2 : toString (Int.ofNat m) = String.mk (fmtDigits (m + 1) m []) := by
      rw [fmtDigits_repr]; rfl
    rw [h2]
    simp only [h1, if_false]
    rfl
  | negSucc m =>
    have h1 : Int.negSucc m < 0 := Int.negSucc_lt_zero m
    have h2 : toString (Int.negSucc m) = String.mk ('-' :: fmtDigits (m + 1 + 1) (m + 1) []) := by
      show "-" ++ toString (m + 1) = _
      rw [← fmtDigits_repr]; rfl
    rw [h2]
    simp only [h1, if_true]
    rfl

/-- The line `printCounts` writes is the line the specification describes. -/
theorem printCounts_eq_specLine (lines words bytesCount : Int) (name : String)
    (showL showW showC : Bool) (stdout : String) :
    printCounts lines words bytesCount name showL showW showC stdout
      = stdout ++ specLine lines words bytesCount name showL showW showC := by
  unfold printCounts specLine
  simp only [fmtInt8_eq]
  by_cases hn : name = ""
  · cases showL <;> cases showW <;> cases showC <;>
      simp [hn, String.join, String.append_assoc]
  · cases showL <;> cases showW <;> cases showC <;>
      simp [hn, String.join, String.append_assoc]

/-! ## The counts of a stream -/

/-- On every finite stream `count` returns: the line feeds, the word starts and
the length of the delivered bytes, and the stream's error unless it is
`io.EOF`. -/
theorem count_eq (r : Reader) :
    count r = some ⟨lineFeeds r.buf, wordsFrom false (runes r.buf), r.buf.length,
      if r.err = Err.EOF then none else some r.err⟩ := by
  have h := countLoop_eq r.buf r.err (r.buf.length + 1) 0 0 0 false (Nat.lt_succ_self _)
  simp only [Int.zero_add] at h
  exact h

theorem count_ofBytes (bs : List Byte) :
    count (ofBytes bs) = some ⟨lineFeeds bs, wordsFrom false (runes bs), bs.length, none⟩ := by
  rw [count_eq]; rfl

theorem lineFeeds_append (A B : List Byte) : lineFeeds (A ++ B) = lineFeeds A + lineFeeds B := by
  simp [lineFeeds, List.countP_append]

/-- The word runs of a sequence are counted by the scanner: all of them when it
starts outside a word, all but the piece before the first whitespace when it
starts inside one. -/
theorem wordsFrom_eq_runs (xs : List Nat) :
    wordsFrom false xs = ((xs.splitOnP isSpace).filter fun w => !w.isEmpty).length ∧
    wordsFrom true xs = ((xs.splitOnP isSpace).tail.filter fun w => !w.isEmpty).length := by
  induction xs with
  | nil => exact ⟨rfl, rfl⟩
  | cons x xs ih =>
    obtain ⟨ihf, iht⟩ := ih
    obtain ⟨h, t, hS⟩ := List.exists_cons_of_ne_nil (List.splitOnP_ne_nil isSpace xs)
    rw [hS] at ihf iht
    rw [List.splitOnP_cons, hS, wordsFrom, wordsFrom]
    by_cases hx : isSpace x = true
    · rw [if_pos hx, if_pos hx, if_pos hx]
      simp only [List.tail_cons]
      refine ⟨?_, ihf⟩
      rw [ihf]
      simp
    · rw [if_neg hx, if_neg hx, if_neg hx]
      simp only [List.tail_cons] at iht
      simp only [List.modifyHead_cons, List.tail_cons]
      refine ⟨?_, ?_⟩
      · rw [iht]; simp; omega
      · rw [iht]; simp

theorem wordsFrom_false_eq_wordRuns (xs : List Nat) :
    wordsFrom false xs = (wordRuns xs).length := (wordsFrom_eq_runs xs).1

theorem head_not_cont_of_space (B : List Byte)
    (h : ∃ r, (runes B).head? = some r ∧ isSpace r = true) :
    ∀ d q1, B = d :: q1 → ¬ (0x80 ≤ d.val ∧ d.val ≤ 0xBF) := by
  intro d q1 hB hc
  obtain ⟨r, hr, hsp⟩ := h
  rw [hB, runes_cons, nextRune_cont d q1 hc.1 hc.2] at hr
  simp only [List.head?_cons, Option.some.injEq] at hr
  rw [← hr, isSpace_RuneError] at hsp
  exact Bool.noConfusion hsp

/-- The word counts of two streams add up to the word count of their
concatenation when one is empty, the first ends in whitespace or the second
starts with whitespace. -/
theorem wordsFrom_runes_append (A B : List Byte)
    (h : A = [] ∨ B = [] ∨ (∃ r, (runes A).getLast? = some r ∧ isSpace r = true) ∨
      (∃ r, (runes B).head? = some r ∧ isSpace r = true)) :
    wordsFrom false (runes (A ++ B))
      = wordsFrom false (runes A) + wordsFrom false (runes B) := by
  rcases h with rfl | rfl | h | h
  · simp [runes_nil, wordsFrom]
  · simp [runes_nil, wordsFrom]
  · rw [runes_append_of_last A B h, wordsFrom_append, inWordAfter_eq]
    obtain ⟨r, hr, hsp⟩ := h
    rw [hr]
    simp [hsp]
  · rw [runes_append_of_head A B (head_not_cont_of_space B h), wordsFrom_append]
    obtain ⟨r, hr, hsp⟩ := h
    cases hB : runes B with
    | nil => rfl
    | cons y ys =>
      rw [hB] at hr
      simp only [List.head?_cons, Option.some.injEq] at hr
      subst hr
      rw [wordsFrom, wordsFrom, if_pos hsp, if_pos hsp]

/-! ## The loop, pass by pass -/

/-- The loop of `count` runs `loopBody` until `ReadRune` returns an error. -/
theorem countLoop_succ (fuel : Nat) (v : LoopVars) :
    countLoop (fuel + 1) v.br v.lines v.words v.bytesCount v.inWord =
      match loopBody v with
      | none => some ⟨v.lines, v.words, v.bytesCount,
          if v.br.err = Err.EOF then none else some v.br.err⟩
      | some v1 => countLoop fuel v1.br v1.lines v1.words v1.bytesCount v1.inWord := by
  obtain ⟨⟨p, e⟩, l, w, b, i⟩ := v
  cases p with
  | nil =>
    simp only [countLoop, loopBody, readRune_nil]
    split_ifs <;> rfl
  | cons c rest =>
    simp only [countLoop, loopBody, readRune_cons]
    split_ifs <;> rfl

theorem loopBody_nil (e : Err) (l w b : Int) (i : Bool) :
    loopBody ⟨⟨[], e⟩, l, w, b, i⟩ = none := rfl

theorem loopBody_cons (c : Byte) (rest : List Byte) (e : Err) (l w b : Int) (i : Bool) :
    loopBody ⟨⟨c :: rest, e⟩, l, w, b, i⟩ =
      some ⟨⟨(c :: rest).drop (nextRune c rest).2, e⟩,
        if (nextRune c rest).1 = 0x0A then l + 1 else l,
        if isSpace (nextRune c rest).1 = true then w else if i = true then w else w + 1,
        b + (nextRune c rest).2,
        !isSpace (nextRune c rest).1⟩ := by
  simp only [loopBody, readRune_cons]
  by_cases hsp : isSpace (nextRune c rest).1 = true
  · simp [hsp]
  · cases i <;> simp [hsp]

/-- The word counter and the flag after `k` passes, by the first `k` decoded
characters. -/
theorem varsAfter_words (k : Nat) (p : List Byte) (e : Err) (l w b : Int) (i : Bool) :
    (varsAfter k ⟨⟨p, e⟩, l, w, b, i⟩).words = w + wordsFrom i ((runes p).take k) ∧
    (varsAfter k ⟨⟨p, e⟩, l, w, b, i⟩).inWord = inWordAfter i ((runes p).take k) := by
  induction k generalizing p l w b i with
  | zero => simp [varsAfter, wordsFrom, inWordAfter]
  | succ k ih =>
    cases p with
    | nil => simp [varsAfter, loopBody_nil, runes_nil, wordsFrom, inWordAfter]
    | cons c rest =>
      rw [varsAfter, loopBody_cons, runes_cons, List.take_succ_cons, wordsFrom, inWordAfter]
      simp only
      obtain ⟨h1, h2⟩ := ih ((c :: rest).drop (nextRune c rest).2)
        (if (nextRune c rest).1 = 0x0A then l + 1 else l)
        (if isSpace (nextRune c rest).1 = true then w else if i = true then w else w + 1)
        (b + (nextRune c rest).2) (!isSpace (nextRune c rest).1)
      rw [h1, h2]
      refine ⟨?_, rfl⟩
      by_cases hsp : isSpace (nextRune c rest).1 = true
      · simp [hsp]
      · cases i <;> simp [hsp]
        omega

theorem inWordAfter_append (b : Bool) (xs ys : List Nat) :
    inWordAfter b (xs ++ ys) = inWordAfter (inWordAfter b xs) ys := by
  induction xs generalizing b with
  | nil => rfl
  | cons x xs ih => rw [List.cons_append, inWordAfter, inWordAfter, ih]

theorem take_succ_runes (xs : List Nat) (j : Nat) :
    wordsFrom false (xs.take (j + 1)) = wordsFrom false (xs.take j) +
      (if inWordAfter false (xs.take j) = false ∧ inWordAfter false (xs.take (j + 1)) = true
        then 1 else 0) := by
  by_cases hj : j < xs.length
  · obtain ⟨x, ht⟩ : ∃ x, xs.take (j + 1) = xs.take j ++ [x] :=
      ⟨xs[j], by rw [List.take_succ]; simp [List.getElem?_eq_getElem hj]⟩
    rw [ht, wordsFrom_append, inWordAfter_append]
    simp only [wordsFrom, inWordAfter]
    by_cases hsp : isSpace x = true
    · simp [hsp]
    · cases hw : inWordAfter false (xs.take j) <;> simp [hsp]
  · have h1 : xs.take (j + 1) = xs := List.take_of_length_le (by omega)
    have h2 : xs.take j = xs := List.take_of_length_le (by omega)
    rw [h1, h2]
    simp

/-- Bytes bound the line feeds and word starts together. -/
theorem lineFeeds_add_words_le (p : List Byte) :
    ∀ b : Bool, lineFeeds p + wordsFrom b (runes p) ≤ p.length := by
  induction p using decode_induction with
  | hnil => intro b; simp [lineFeeds, runes_nil, wordsFrom]
  | hcons c rest ih =>
    intro b
    have h1 := length_drop_nextRune c rest
    have h2 := nextRune_size c rest
    have hlf := lineFeeds_nextRune c rest
    rw [runes_cons, wordsFrom, hlf, List.length_cons]
    by_cases hsp : isSpace (nextRune c rest).1 = true
    · rw [if_pos hsp]
      have := ih false
      split_ifs <;> omega
    · rw [if_neg hsp]
      have hne : ¬ (nextRune c rest).1 = 0x0A := by
        intro h; apply hsp; rw [h]; decide
      rw [if_neg hne]
      have := ih true
      split_ifs <;> omega

theorem varsAfter_step (r : Reader) (j : Nat) :
    (varsAfter (j + 1) (initVars r)).words = (varsAfter j (initVars r)).words +
      (if (varsAfter j (initVars r)).inWord = false ∧
          (varsAfter (j + 1) (initVars r)).inWord = true then 1 else 0) := by
  obtain ⟨p, e⟩ := r
  simp only [initVars]
  have h1 := (varsAfter_words (j + 1) p e 0 0 0 false).1
  have h2 := (varsAfter_words j p e 0 0 0 false).1
  have h3 := (varsAfter_words (j + 1) p e 0 0 0 false).2
  have h4 := (varsAfter_words j p e 0 0 0 false).2
  simp only [h1, h2, h3, h4, take_succ_runes]
  split_ifs <;> simp

theorem varsAfter_words_countP (r : Reader) (k : Nat) :
    (varsAfter k (initVars r)).words = ((List.range k).countP fun j =>
      !(varsAfter j (initVars r)).inWord && (varsAfter (j + 1) (initVars r)).inWord : Nat) := by
  induction k with
  | zero => rfl
  | succ k ih =>
    rw [varsAfter_step, ih, List.range_succ, List.countP_append]
    simp only [List.countP_cons, List.countP_nil, Nat.zero_add]
    cases h1 : (varsAfter k (initVars r)).inWord <;>
      cases h2 : (varsAfter (k + 1) (initVars r)).inWord <;> simp

theorem varsAfter_inWord (r : Reader) (k : Nat) :
    (varsAfter k (initVars r)).inWord = true ↔
      ∃ x, ((runes r.buf).take k).getLast? = some x ∧ isSpace x = false := by
  obtain ⟨p, e⟩ := r
  simp only [initVars]
  rw [(varsAfter_words k p e 0 0 0 false).2, inWordAfter_eq]
  cases h : ((runes p).take k).getLast? with
  | none => simp
  | some x => simp

theorem count_eq_varsAfter (r : Reader) :
    ∃ c, count r = some c ∧
      c.words = (varsAfter (runes r.buf).length (initVars r)).words := by
  refine ⟨_, count_eq r, ?_⟩
  obtain ⟨p, e⟩ := r
  simp only [initVars]
  rw [(varsAfter_words _ p e 0 0 0 false).1, List.take_length]
  simp

theorem nextRune_of_not_valid (c : Byte) (rest : List Byte) (h : beginsValid c rest = false) :
    nextRune c rest = (RuneError, 1) := by
  rcases nextRune_cases c rest with ⟨h0, _⟩ | ⟨_, he⟩ | ⟨hl, h1, h2, h3, h4, _⟩ |
    ⟨hl, h1, h2, h3, h4, h5, h6, h7, h8, _⟩ |
    ⟨hl, h1, h2, h3, h4, h5, h6, h7, h8, h9, h10, _⟩
  · exfalso
    have hv : beginsValid c rest = true := by
      simp only [beginsValid, isCont, Bool.or_eq_true, Bool.and_eq_true, decide_eq_true_eq]
      exact Or.inl (Or.inl (Or.inl (Or.inl (Or.inl (Or.inl (Or.inl (by omega)))))))
    rw [h] at hv; exact Bool.noConfusion hv
  · exact he
  · exfalso
    have hv : beginsValid c rest = true := by
      simp only [beginsValid, isCont, Bool.or_eq_true, Bool.and_eq_true, decide_eq_true_eq]
      exact Or.inl (Or.inl (Or.inl (Or.inl (Or.inl (Or.inl (Or.inr (by omega)))))))
    rw [h] at hv; exact Bool.noConfusion hv
  · exfalso
    have hv : beginsValid c rest = true := by
      simp only [beginsValid, isCont, Bool.or_eq_true, Bool.and_eq_true, decide_eq_true_eq]
      by_cases hE0 : c.val = 0xE0
      · exact Or.inl (Or.inl (Or.inl (Or.inl (Or.inl (Or.inr (by omega))))))
      · by_cases hED : c.val = 0xED
        · exact Or.inl (Or.inl (Or.inl (Or.inr (by omega))))
        · exact Or.inl (Or.inl (Or.inl (Or.inl (Or.inr (by omega)))))
    rw [h] at hv; exact Bool.noConfusion hv
  · exfalso
    have hv : beginsValid c rest = true := by
      simp only [beginsValid, isCont, Bool.or_eq_true, Bool.and_eq_true, decide_eq_true_eq]
      by_cases hF0 : c.val = 0xF0
      · exact Or.inl (Or.inl (Or.inr (by omega)))
      · by_cases hF4 : c.val = 0xF4
        · exact Or.inr (by omega)
        · exact Or.inl (Or.inr (by omega))
    rw [h] at hv; exact Bool.noConfusion hv

theorem nextRune_two (c : Byte) (rest : List Byte) (hl : 1 ≤ rest.length)
    (h1 : 0xC2 ≤ c.val) (h2 : c.val ≤ 0xDF)
    (h3 : 0x80 ≤ byteAt rest 0) (h4 : byteAt rest 0 ≤ 0xBF) : (nextRune c rest).2 = 2 := by
  rw [nextRune_eq, if_neg (by omega), if_pos ⟨hl, h1, h2, h3, h4⟩]

theorem nextRune_three (c : Byte) (rest : List Byte) (hl : 2 ≤ rest.length)
    (h1 : 0xE0 ≤ c.val) (h2 : c.val ≤ 0xEF)
    (h3 : 0x80 ≤ byteAt rest 0) (h4 : byteAt rest 0 ≤ 0xBF)
    (h5 : c.val = 0xE0 → 0xA0 ≤ byteAt rest 0) (h6 : c.val = 0xED → byteAt rest 0 ≤ 0x9F)
    (h7 : 0x80 ≤ byteAt rest 1) (h8 : byteAt rest 1 ≤ 0xBF) : (nextRune c rest).2 = 3 := by
  rw [nextRune_eq, if_neg (by omega), if_neg (by omega),
    if_pos ⟨hl, h1, h2, h3, h4, h5, h6, h7, h8⟩]

theorem nextRune_four (c : Byte) (rest : List Byte) (hl : 3 ≤ rest.length)
    (h1 : 0xF0 ≤ c.val) (h2 : c.val ≤ 0xF4)
    (h3 : 0x80 ≤ byteAt rest 0) (h4 : byteAt rest 0 ≤ 0xBF)
    (h5 : c.val = 0xF0 → 0x90 ≤ byteAt rest 0) (h6 : c.val = 0xF4 → byteAt rest 0 ≤ 0x8F)
    (h7 : 0x80 ≤ byteAt rest 1) (h8 : byteAt rest 1 ≤ 0xBF)
    (h9 : 0x80 ≤ byteAt rest 2) (h10 : byteAt rest 2 ≤ 0xBF) : (nextRune c rest).2 = 4 := by
  rw [nextRune_eq, if_neg (by omega), if_neg (by omega), if_neg (by omega),
    if_pos ⟨hl, h1, h2, h3, h4, h5, h6, h7, h8, h9, h10⟩]

/-- When appending `q` changes the rune read at `c`, the bytes `c :: rest` are
a truncated encoding that the first bytes of `q`, all continuation bytes,
complete. -/
theorem nextRune_append_unstable (c : Byte) (rest q : List Byte) :
    nextRune c (rest ++ q) = nextRune c rest ∨
    (nextRune c rest = (RuneError, 1) ∧ (∀ b ∈ rest, 0x80 ≤ b.val ∧ b.val ≤ 0xBF) ∧
      ∃ h, 1 ≤ h ∧ h ≤ q.length ∧ (nextRune c (rest ++ q)).2 = rest.length + 1 + h ∧
        ∀ b ∈ q.take h, 0x80 ≤ b.val ∧ b.val ≤ 0xBF) := by
  rcases nextRune_append_cases c rest q with hs | ⟨hlen, hc, hcont, he, d, q1, rfl, hd1, hd2⟩
  · exact Or.inl hs
  by_cases heq : nextRune c (rest ++ d :: q1) = nextRune c rest
  · exact Or.inl heq
  right
  refine ⟨he, hcont, ?_⟩
  rw [he] at heq
  have hsz : (nextRune c rest).2 = 1 := by rw [he]
  rcases nextRune_cases c (rest ++ d :: q1) with ⟨h0, _⟩ | ⟨_, he'⟩ | ⟨hl, h1, h2, h3, h4, hr⟩ |
    ⟨hl, h1, h2, h3, h4, h5, h6, h7, h8, hr⟩ |
    ⟨hl, h1, h2, h3, h4, h5, h6, h7, h8, h9, h10, hr⟩
  · omega
  · exact absurd he' heq
  · rw [hr]
    match rest, hlen, hsz with
    | [], _, _ => exact ⟨1, by omega, by simp, rfl, by simp; omega⟩
    | b1 :: tl, _, hsz =>
      have := nextRune_two c (b1 :: tl) (by simp) h1 h2 h3 h4
      omega
  · rw [hr]
    match rest, hlen, hsz, hl, h3, h4, h5, h6, h7, h8 with
    | [], _, _, hl, h3, h4, h5, h6, h7, h8 =>
      match q1, hl, h7, h8 with
      | e :: q2, _, h7, h8 =>
        refine ⟨2, by omega, by simp, rfl, ?_⟩
        simp only [byteAt, List.nil_append, List.getD_cons_zero, List.getD_cons_succ] at h7 h8
        simp
        omega
    | [b1], _, _, hl, h3, h4, h5, h6, h7, h8 =>
      exact ⟨1, by omega, by simp, rfl, by simp; omega⟩
    | b1 :: b2 :: tl, _, hsz, hl, h3, h4, h5, h6, h7, h8 =>
      have := nextRune_three c (b1 :: b2 :: tl) (by simp) h1 h2 h3 h4 h5 h6 h7 h8
      omega
  · rw [hr]
    match rest, hlen, hsz, hl, h3, h4, h5, h6, h7, h8, h9, h10 with
    | [], _, _, hl, h3, h4, h5, h6, h7, h8, h9, h10 =>
      match q1, hl, h7, h8, h9, h10 with
      | e :: f :: q3, _, h7, h8, h9, h10 =>
        refine ⟨3, by omega, by simp, rfl, ?_⟩
        simp only [byteAt, List.nil_append, List.getD_cons_zero, List.getD_cons_succ]
          at h7 h8 h9 h10
        simp
        omega
    | [b1], _, _, hl, h3, h4, h5, h6, h7, h8, h9, h10 =>
      match q1, hl, h9, h10 with
      | e :: q2, _, h9, h10 =>
        refine ⟨2, by omega, by simp, rfl, ?_⟩
        simp only [byteAt, List.cons_append, List.nil_append, List.getD_cons_zero,
          List.getD_cons_succ] at h9 h10
        simp
        omega
    | [b1, b2], _, _, hl, h3, h4, h5, h6, h7, h8, h9, h10 =>
      exact ⟨1, by omega, by simp, rfl, by simp; omega⟩

/-- Leading continuation bytes are read one by one, each as `RuneError`. -/
theorem runes_cont_append (H P : List Byte) (hH : ∀ b ∈ H, 0x80 ≤ b.val ∧ b.val ≤ 0xBF) :
    runes (H ++ P) = H.map (fun _ => RuneError) ++ runes P := by
  induction H with
  | nil => rfl
  | cons x xs ih =>
    have hx := hH x (List.mem_cons_self _ _)
    rw [List.cons_append, runes_cons, nextRune_cont x (xs ++ P) hx.1 hx.2]
    simp only [List.drop_succ_cons, List.drop_zero, List.map_cons, List.cons_append]
    rw [ih (fun b hb => hH b (List.mem_cons_of_mem _ hb))]

theorem inWordAfter_no_space (b : Bool) (xs : List Nat) (hne : xs ≠ [])
    (h : ∀ r ∈ xs, isSpace r = false) : inWordAfter b xs = true := by
  rw [inWordAfter_eq, List.getLast?_eq_getLast xs hne]
  simp [h _ (List.getLast_mem hne)]

theorem wordsFrom_no_space_any (b : Bool) (xs : List Nat) (hne : xs ≠ [])
    (h : ∀ r ∈ xs, isSpace r = false) : wordsFrom b xs = if b = true then 0 else 1 := by
  cases b with
  | false => simpa using wordsFrom_no_space xs hne h
  | true => simpa using wordsFrom_true_no_space xs h

theorem wordsFrom_false_bounds (xs : List Nat) :
    wordsFrom true xs ≤ wordsFrom false xs ∧ wordsFrom false xs ≤ wordsFrom true xs + 1 := by
  have h := wordsFrom_true_le xs
  cases hx : xs.head? with
  | none => rw [hx] at h; simp only at h; omega
  | some r =>
    rw [hx] at h
    simp only at h
    split_ifs at h <;> omega

theorem wordsFrom_any_bounds (b : Bool) (xs : List Nat) :
    wordsFrom true xs ≤ wordsFrom b xs ∧ wordsFrom b xs ≤ wordsFrom true xs + 1 := by
  cases b with
  | false => exact wordsFrom_false_bounds xs
  | true => omega

/-- The word count of a concatenation against the sum of the two word counts,
from any state of the scanner. -/
theorem words_concat_bounds (A B : List Byte) : ∀ b : Bool,
    wordsFrom b (runes (A ++ B)) ≤ wordsFrom b (runes A) + wordsFrom false (runes B) ∧
    wordsFrom b (runes A) + wordsFrom false (runes B) ≤ wordsFrom b (runes (A ++ B)) + 2 := by
  induction A using decode_induction with
  | hnil =>
    intro b
    have := wordsFrom_false_bounds (runes B)
    simp only [List.nil_append, runes_nil, wordsFrom]
    cases b <;> omega
  | hcons c rest ih =>
    intro b
    rcases nextRune_append_unstable c rest B with hs | ⟨he, hcont, h, h1, h2, hsz, hH⟩
    · rw [List.cons_append, runes_cons, hs, drop_nextRune_append, runes_cons c rest,
        wordsFrom, wordsFrom]
      by_cases hsp : isSpace (nextRune c rest).1 = true
      · rw [if_pos hsp, if_pos hsp]
        exact ih false
      · rw [if_neg hsp, if_neg hsp]
        have := ih true
        omega
    · have hA : ∀ r ∈ runes (c :: rest), isSpace r = false := by
        intro r hr
        rw [runes_cons, he] at hr
        simp only [List.drop_succ_cons, List.drop_zero, List.mem_cons] at hr
        have : r = RuneError := by
          rcases hr with h | h
          · exact h
          · exact runes_of_cont rest hcont r h
        rw [this]; exact isSpace_RuneError
      have hAne : runes (c :: rest) ≠ [] := by rw [runes_cons]; exact List.cons_ne_nil _ _
      have hB : runes B = (B.take h).map (fun _ => RuneError) ++ runes (B.drop h) := by
        conv_lhs => rw [← List.take_append_drop h B]
        exact runes_cont_append _ _ hH
      have hBne : (B.take h).map (fun _ => RuneError) ≠ [] := by
        intro h0
        have := congrArg List.length h0
        simp only [List.length_map, List.length_take, List.length_nil] at this
        omega
      have hBsp : ∀ r ∈ (B.take h).map (fun _ => RuneError), isSpace r = false := by
        intro r hr
        simp only [List.mem_map] at hr
        obtain ⟨_, _, rfl⟩ := hr
        exact isSpace_RuneError
      have hdrop : (c :: (rest ++ B)).drop (nextRune c (rest ++ B)).2 = B.drop h := by
        rw [hsz, ← List.cons_append]
        have : rest.length + 1 + h = (c :: rest).length + h := by simp
        rw [this, List.drop_append]
      rw [List.cons_append, runes_cons, hdrop, hB, wordsFrom_no_space_any b _ hAne hA,
        wordsFrom_append, wordsFrom_no_space_any false _ hBne hBsp,
        inWordAfter_no_space false _ hBne hBsp, wordsFrom]
      have hb1 := wordsFrom_false_bounds (runes (B.drop h))
      by_cases hsp : isSpace (nextRune c (rest ++ B)).1 = true
      · rw [if_pos hsp]
        cases b <;> simp <;> omega
      · rw [if_neg hsp]
        cases b <;> simp <;> omega

theorem decodeAll_cons (c : Byte) (rest : List Byte) :
    decodeAll (c :: rest).length (c :: rest) = nextRune c rest ::
      decodeAll ((c :: rest).drop (nextRune c rest).2).length
        ((c :: rest).drop (nextRune c rest).2) := by
  have h1 := length_drop_nextRune c rest
  have h2 := nextRune_size c rest
  simp only [List.length_cons, decodeAll]
  rw [decodeAll_fuel rest.length _ (by omega)]

/-- Decoding distributes over a concatenation split between two characters. -/
theorem runes_append_of_boundary (A B : List Byte)
    (h : ∃ k, (((decodeAll (A ++ B).length (A ++ B)).take k).map Prod.snd).sum = A.length) :
    runes (A ++ B) = runes A ++ runes B := by
  induction A using decode_induction with
  | hnil => simp [runes_nil]
  | hcons c rest ih =>
    obtain ⟨k, hk⟩ := h
    rw [List.cons_append, decodeAll_cons] at hk
    cases k with
    | zero => simp at hk
    | succ k =>
      simp only [List.take_succ_cons, List.map_cons, List.sum_cons, List.length_cons] at hk
      rcases nextRune_append_unstable c rest B with hs | ⟨_, _, h, h1, _, hsz, _⟩
      · have hsize := length_drop_nextRune c rest
        rw [hs, drop_nextRune_append] at hk
        have hk' : ∃ k, (((decodeAll ((c :: rest).drop (nextRune c rest).2 ++ B).length
            ((c :: rest).drop (nextRune c rest).2 ++ B)).take k).map Prod.snd).sum
            = ((c :: rest).drop (nextRune c rest).2).length :=
          ⟨k, by omega⟩
        rw [List.cons_append, runes_cons, hs, drop_nextRune_append, ih hk', runes_cons c rest,
          List.cons_append]
      · rw [hsz] at hk
        omega

/-! ## main -/

theorem join_cons (a : String) (l : List String) :
    String.join (a :: l) = a ++ String.join l := by
  rw [String.join_eq, String.join_eq]
  apply String.ext
  simp

theorem perFileLines_nil (l w c : Bool) : perFileLines l w c [] = "" := rfl

theorem perFileLines_cons (l w c : Bool) (x : String × Counts) (xs : List (String × Counts)) :
    perFileLines l w c (x :: xs) =
      specLine x.2.lines x.2.words x.2.bytesCount x.1 l w c ++ perFileLines l w c xs := by
  simp only [perFileLines, List.map_cons, join_cons]

theorem successOf_ok (name : String) (f : Reader) :
    successOf (name, .ok f) =
      if f.err = Err.EOF then
        some (name, ⟨lineFeeds f.buf, wordsFrom false (runes f.buf), f.buf.length, none⟩)
      else none := by
  simp only [successOf, count_eq]
  by_cases h : f.err = Err.EOF <;> simp [h]

theorem successOf_error (name : String) (e : Err) : successOf (name, .error e) = none := rfl

/-- The loop over the arguments: it appends the lines of the successfully
processed inputs, adds their counts to the totals and counts them. -/
theorem fileLoop_eq (env : Env) (l w c : Bool) (args : List String) :
    ∀ (out err : String) (tl tw tb fp : Int) (k : Nat), ∃ err1 k1,
      fileLoop env l w c args ⟨out, err, tl, tw, tb, fp, k⟩ = some
        ⟨out ++ perFileLines l w c ((inputsOf env k args).filterMap successOf), err1,
          tl + (((inputsOf env k args).filterMap successOf).map fun x => x.2.lines).sum,
          tw + (((inputsOf env k args).filterMap successOf).map fun x => x.2.words).sum,
          tb + (((inputsOf env k args).filterMap successOf).map fun x => x.2.bytesCount).sum,
          fp + ((inputsOf env k args).filterMap successOf).length, k1⟩ := by
  induction args with
  | nil =>
    intro out err tl tw tb fp k
    refine ⟨err, k, ?_⟩
    simp [fileLoop, inputsOf, perFileLines_nil]
  | cons name rest ih =>
    intro out err tl tw tb fp k
    by_cases hname : name = "-"
    · subst hname
      by_cases herr : (env.stdin k).err = Err.EOF
      · obtain ⟨err1, k1, h⟩ := ih
          (printCounts (lineFeeds (env.stdin k).buf) (wordsFrom false (runes (env.stdin k).buf))
            (env.stdin k).buf.length "-" l w c out) err
          (tl + lineFeeds (env.stdin k).buf) (tw + wordsFrom false (runes (env.stdin k).buf))
          (tb + (env.stdin k).buf.length) (fp + 1) (k + 1)
        refine ⟨err1, k1, ?_⟩
        simp only [fileLoop, if_true, count_eq, herr, inputsOf, List.filterMap_cons,
          successOf_ok, perFileLines_cons, List.map_cons, List.sum_cons, List.length_cons]
        rw [h]
        simp only [printCounts_eq_specLine, String.append_assoc, Option.some.injEq,
          MainState.mk.injEq, true_and, and_true]
        refine ⟨?_, ?_, ?_, ?_⟩ <;> push_cast <;> omega
      · obtain ⟨err1, k1, h⟩ := ih out
          (err ++ "my-wc:error reading " ++ "-" ++ ":"
            ++ env.errorText (env.stdin k).err ++ "\n") tl tw tb fp (k + 1)
        refine ⟨err1, k1, ?_⟩
        simp only [fileLoop, if_true, count_eq, herr, if_false, h, inputsOf,
          List.filterMap_cons, successOf_ok]
    · cases hopen : env.openFile name with
      | error e =>
        obtain ⟨err1, k1, h⟩ := ih out
          (err ++ "my-wc: cannot opem " ++ name ++ ":" ++ env.errorText e ++ "\n")
          tl tw tb fp k
        refine ⟨err1, k1, ?_⟩
        simp only [fileLoop, hname, if_false, hopen, h, inputsOf, List.filterMap_cons,
          successOf_error]
      | ok f =>
        by_cases herr : f.err = Err.EOF
        · obtain ⟨err1, k1, h⟩ := ih
            (printCounts (lineFeeds f.buf) (wordsFrom false (runes f.buf))
              f.buf.length name l w c out) err
            (tl + lineFeeds f.buf) (tw + wordsFrom false (runes f.buf))
            (tb + f.buf.length) (fp + 1) k
          refine ⟨err1, k1, ?_⟩
          simp only [fileLoop, hname, if_false, hopen, if_true, count_eq, herr, inputsOf,
            List.filterMap_cons, successOf_ok, perFileLines_cons, List.map_cons, List.sum_cons,
            List.length_cons]
          rw [h]
          simp only [printCounts_eq_specLine, String.append_assoc, Option.some.injEq,
            MainState.mk.injEq, true_and, and_true]
          refine ⟨?_, ?_, ?_, ?_⟩ <;> push_cast <;> omega
        · obtain ⟨err1, k1, h⟩ := ih out
            (err ++ "my-wc:error reading " ++ name ++ ":" ++ env.errorText f.err ++ "\n")
            tl tw tb fp k
          refine ⟨err1, k1, ?_⟩
          simp only [fileLoop, hname, if_false, hopen, count_eq, herr, h, inputsOf,
            List.filterMap_cons, successOf_ok]

/-- A run without positional arguments: one line for standard input, or the
error and exit status 1. -/
theorem main_stdin (l w c : Bool) (env : Env) :
    main l w c [] env =
      if (env.stdin 0).err = Err.EOF then
        some ⟨specLine (lineFeeds (env.stdin 0).buf) (wordsFrom false (runes (env.stdin 0).buf))
          (env.stdin 0).buf.length "" (effectiveFlags l w c).1 (effectiveFlags l w c).2.1
          (effectiveFlags l w c).2.2, "", 0⟩
      else some ⟨"", "my-wc " ++ env.errorText (env.stdin 0).err ++ "\n", 1⟩ := by
  by_cases h : (env.stdin 0).err = Err.EOF
  · simp [main, count_eq, h, printCounts_eq_specLine]
  · simp [main, count_eq, h]

/-- A run with positional arguments: the lines of the successfully processed
inputs, then the line `total` if there are more than one of them; the exit
status is 0. -/
theorem main_files (l w c : Bool) (args : List String) (env : Env) (hne : args ≠ []) :
    ∃ err, main l w c args env = some
      ⟨perFileLines (effectiveFlags l w c).1 (effectiveFlags l w c).2.1
          (effectiveFlags l w c).2.2 (successes env args) ++
        (if 1 < (successes env args).length then
          totalLine (effectiveFlags l w c).1 (effectiveFlags l w c).2.1
            (effectiveFlags l w c).2.2 (successes env args)
        else ""), err, 0⟩ := by
  obtain ⟨err1, k1, h⟩ := fileLoop_eq env (effectiveFlags l w c).1 (effectiveFlags l w c).2.1
    (effectiveFlags l w c).2.2 args "" "" 0 0 0 0 0
  refine ⟨err1, ?_⟩
  have hlen : ¬ args.length = 0 := by
    intro h0; exact hne (List.length_eq_zero.1 h0)
  simp only [main, hlen, if_false, h, successes, totalLine, Int.zero_add]
  by_cases h1 : 1 < ((inputsOf env 0 args).filterMap successOf).length
  · have h2 : ((((inputsOf env 0 args).filterMap successOf).length : Nat) : Int) > 1 := by
      omega
    simp only [h1, h2, if_true, printCounts_eq_specLine, String.append_assoc]
    simp
  · have h2 : ¬ ((((inputsOf env 0 args).filterMap successOf).length : Nat) : Int) > 1 := by
      omega
    simp only [h1, h2, if_false]
    simp

/-- Dropping from the arguments a named file that fails to open or to read
leaves the successfully processed inputs unchanged. -/
theorem successes_skip (env : Env) (pre post : List String) (name : String)
    (hname : name ≠ "-") (hfail : successOf (name, env.openFile name) = none) :
    successes env (pre ++ name :: post) = successes env (pre ++ post) := by
  have key : ∀ k, (inputsOf env k (pre ++ name :: post)).filterMap successOf
      = (inputsOf env k (pre ++ post)).filterMap successOf := by
    induction pre with
    | nil =>
      intro k
      simp only [List.nil_append, inputsOf, hname, if_false, List.filterMap_cons, hfail]
    | cons x xs ih =>
      intro k
      by_cases hx : x = "-"
      · simp only [List.cons_append, inputsOf, hx, if_true, List.filterMap_cons,
          List.append_eq, ih (k + 1)]
      · simp only [List.cons_append, inputsOf, hx, if_false, List.filterMap_cons,
          List.append_eq, ih k]
  exact key 0

theorem splitOnRuneBoundary_exists (A B : List Byte) (h : splitOnRuneBoundary A B = true) :
    ∃ k, (((decodeAll (A ++ B).length (A ++ B)).take k).map Prod.snd).sum = A.length := by
  obtain ⟨k, _, hk⟩ := List.any_eq_true.1 h
  exact ⟨k, beq_iff_eq.1 hk⟩

theorem effectiveFlags_of_some (l w c : Bool) (h : (l || w || c) = true) :
    effectiveFlags l w c = (l, w, c) := by
  cases l <;> cases w <;> cases c <;> first | rfl | exact absurd h (by decide)

/-- After `flag.Parse`, the exit status is 1 exactly when no positional
argument is given and the read of standard input fails, and then nothing is
written to standard output; otherwise, whatever files fail to open or to
read, it is 0. -/
theorem main_exitCode (l w c : Bool) (args : List String) (env : Env) :
    ∃ out, main l w c args env = some out ∧
      (out.exitCode = 1 ↔ args = [] ∧ (env.stdin 0).err ≠ Err.EOF) ∧
      (out.exitCode = 0 ∨ out.exitCode = 1) ∧
      (out.exitCode = 1 → out.stdout = "") := by
  cases args with
  | nil =>
    by_cases h : (env.stdin 0).err = Err.EOF
    · refine ⟨_, by rw [main_stdin, if_pos h], ?_, Or.inl rfl, ?_⟩
      · simp [h]
      · intro h1; exact absurd h1 Nat.zero_ne_one
    · refine ⟨_, by rw [main_stdin, if_neg h], ?_, Or.inr rfl, fun _ => rfl⟩
      simp [h]
  | cons a as =>
    obtain ⟨err, h⟩ := main_files l w c (a :: as) env (List.cons_ne_nil _ _)
    refine ⟨_, h, ?_, Or.inl rfl, ?_⟩
    · simp
    · intro h1; exact absurd h1 Nat.zero_ne_one


/-! ## The claims -/

/-- C1: for every finite byte sequence read to a clean end of stream, valid
UTF-8 or not, `count` returns, with a nil error, a `bytes` value equal to the
length in bytes of the input. -/
theorem C1_bytes_eq_length (bs : List Byte) :
    ∃ c, count (ofBytes bs) = some c ∧ c.err = none ∧ c.bytesCount = bs.length :=
  ⟨_, count_ofBytes bs, rfl, rfl⟩

/-- C2: for every finite byte sequence read to a clean end of stream, the
`lines` value `count` returns is the number of line-feed bytes (0x0A) of the
input; nothing else (a carriage return, an unterminated last line) adds to
it. -/
theorem C2_lines_eq_lineFeeds (bs : List Byte) :
    ∃ c, count (ofBytes bs) = some c ∧ c.err = none ∧
      c.lines = (bs.countP fun b => b.val == 0x0A) :=
  ⟨_, count_ofBytes bs, rfl, rfl⟩

/-- C3: for every input, the `words` value `count` returns is the number of
maximal runs of non-whitespace characters in the decoded character sequence,
and equally the number of positions holding a non-whitespace character that
is first in the input or preceded by a whitespace character. -/
theorem C3_words_eq_runs (r : Reader) :
    ∃ c, count r = some c ∧ c.words = (wordRuns (runes r.buf)).length ∧
      c.words = wordStarts (runes r.buf) := by
  refine ⟨_, count_eq r, ?_, ?_⟩
  · rw [← wordsFrom_false_eq_wordRuns]
  · rw [← wordsFrom_false_eq_wordStarts]

/-- C4: for all byte streams `A` and `B`, wherever the split falls, the
`lines` and `bytes` values of `count` on `A ++ B` are the sums of those on `A`
and on `B`. -/
theorem C4_lines_bytes_concat (A B : List Byte) :
    ∃ ca cb cab, count (ofBytes A) = some ca ∧ count (ofBytes B) = some cb ∧
      count (ofBytes (A ++ B)) = some cab ∧
      cab.lines = ca.lines + cb.lines ∧ cab.bytesCount = ca.bytesCount + cb.bytesCount := by
  refine ⟨_, _, _, count_ofBytes A, count_ofBytes B, count_ofBytes (A ++ B), ?_, ?_⟩
  · simp only [lineFeeds_append]; push_cast; rfl
  · simp only [List.length_append]; push_cast; rfl

/-- C5: for all byte streams `A` and `B`, if `A` is empty, or `B` is empty, or
the last decoded character of `A` is whitespace, or the first decoded
character of `B` is whitespace, then the `words` value of `count` on `A ++ B`
is the sum of those on `A` and on `B`; and when the sum differs from the count
of the concatenation, `A` ends in a non-whitespace character and `B` starts
with one. -/
theorem C5_words_concat (A B : List Byte) :
    ∃ ca cb cab, count (ofBytes A) = some ca ∧ count (ofBytes B) = some cb ∧
      count (ofBytes (A ++ B)) = some cab ∧
      ((A = [] ∨ B = [] ∨ (∃ r, (runes A).getLast? = some r ∧ isSpace r = true) ∨
          (∃ r, (runes B).head? = some r ∧ isSpace r = true)) →
        cab.words = ca.words + cb.words) ∧
      (cab.words ≠ ca.words + cb.words →
        (∃ r, (runes A).getLast? = some r ∧ isSpace r = false) ∧
        (∃ r, (runes B).head? = some r ∧ isSpace r = false)) := by
  refine ⟨_, _, _, count_ofBytes A, count_ofBytes B, count_ofBytes (A ++ B), ?_, ?_⟩
  · intro h
    simp only [wordsFrom_runes_append A B h]; push_cast; rfl
  · intro hne
    have hcond : ¬ (A = [] ∨ B = [] ∨ (∃ r, (runes A).getLast? = some r ∧ isSpace r = true) ∨
        (∃ r, (runes B).head? = some r ∧ isSpace r = true)) := by
      intro h
      apply hne
      simp only [wordsFrom_runes_append A B h]; push_cast; rfl
    simp only [not_or] at hcond
    obtain ⟨hA, hB, hl, hf⟩ := hcond
    constructor
    · have hne : runes A ≠ [] := fun h => hA ((runes_eq_nil A).1 h)
      refine ⟨(runes A).getLast hne, List.getLast?_eq_getLast _ hne, ?_⟩
      cases hsp : isSpace ((runes A).getLast hne) with
      | false => rfl
      | true => exact absurd ⟨_, List.getLast?_eq_getLast _ hne, hsp⟩ hl
    · have hne : runes B ≠ [] := fun h => hB ((runes_eq_nil B).1 h)
      obtain ⟨y, ys, hy⟩ := List.exists_cons_of_ne_nil hne
      refine ⟨y, by rw [hy]; rfl, ?_⟩
      cases hsp : isSpace y with
      | false => rfl
      | true => exact absurd ⟨y, by rw [hy]; rfl, hsp⟩ hf

/-- C5, at `A = "a "` and `B = "b"` (the sum holds) and at `A = "a"` and
`B = "b"` (the sum is 2, the concatenation has one word). -/
theorem C5_words_concat_witness :
    (∃ ca cb cab, count (ofBytes [0x61, 0x20]) = some ca ∧ count (ofBytes [0x62]) = some cb ∧
      count (ofBytes ([0x61, 0x20] ++ [0x62])) = some cab ∧ cab.words = ca.words + cb.words) ∧
    ((∃ r, (runes [0x61]).getLast? = some r ∧ isSpace r = false) ∧
      (∃ r, (runes [0x62]).head? = some r ∧ isSpace r = false)) := by
  constructor
  · obtain ⟨ca, cb, cab, h1, h2, h3, h4, _⟩ := C5_words_concat [0x61, 0x20] [0x62]
    exact ⟨ca, cb, cab, h1, h2, h3,
      h4 (Or.inr (Or.inr (Or.inl ⟨0x20, by decide, by decide⟩)))⟩
  · obtain ⟨ca, cb, cab, h1, h2, h3, _, h5⟩ := C5_words_concat [0x61] [0x62]
    apply h5
    have e1 : count (ofBytes [0x61]) = some ⟨0, 1, 1, none⟩ := by decide
    have e2 : count (ofBytes [0x62]) = some ⟨0, 1, 1, none⟩ := by decide
    have e3 : count (ofBytes ([0x61] ++ [0x62])) = some ⟨0, 1, 2, none⟩ := by decide
    rw [e1] at h1; rw [e2] at h2; rw [e3] at h3
    cases h1; cases h2; cases h3
    decide

/-- C6, refuted as stated: on the stream that delivers `"a\n"` and then fails,
`count` returns the error together with lines 1, words 1, bytes 2, not with
zeros. -/
theorem C6_error_counts_counterexample :
    ∃ c, count ⟨[0x61, 0x0A], Err.other 1⟩ = some c ∧ c.err = some (Err.other 1) ∧
      c.lines = 1 ∧ c.words = 1 ∧ c.bytesCount = 2 ∧
      ¬ (c.lines = 0 ∧ c.words = 0 ∧ c.bytesCount = 0) :=
  ⟨⟨1, 1, 2, some (Err.other 1)⟩, by decide, by decide⟩

/-- C6, amended: for every stream whose read fails with an error other than
end of stream, `count` returns that error together with the counts
accumulated over the bytes delivered before the failure, the same three
values a clean end of stream at that point gives. -/
theorem C6_error_counts_amended (bs : List Byte) (code : Nat) :
    ∃ c c0, count ⟨bs, Err.other code⟩ = some c ∧ count (ofBytes bs) = some c0 ∧
      c.err = some (Err.other code) ∧ c0.err = none ∧
      c.lines = c0.lines ∧ c.words = c0.words ∧ c.bytesCount = c0.bytesCount ∧
      c.bytesCount = bs.length :=
  ⟨_, _, count_eq _, count_ofBytes bs, rfl, rfl, rfl, rfl, rfl, rfl⟩

/-- C7: on every finite stream `count` terminates, and the error it returns is
non-nil if and only if the stream ended with an error other than end of
stream; in particular every finite byte sequence that ends cleanly, malformed
UTF-8 included, gives the three counters with a nil error. -/
theorem C7_error_iff (r : Reader) :
    (∃ c, count r = some c ∧ (c.err ≠ none ↔ r.err ≠ Err.EOF) ∧
      (c.err = none ∨ c.err = some r.err)) ∧
    (∀ bs : List Byte, ∃ c, count (ofBytes bs) = some c ∧ c.err = none) := by
  refine ⟨⟨_, count_eq r, ?_, ?_⟩, fun bs => ⟨_, count_ofBytes bs, rfl⟩⟩
  · by_cases h : r.err = Err.EOF <;> simp [h]
  · by_cases h : r.err = Err.EOF <;> simp [h]

/-- C8: for every input whose decoded characters are all whitespace, the empty
input included, `count` returns `words = 0`; two spaces, a tab, a newline and
two spaces give lines 1, words 0, bytes 6, and the empty input gives 0, 0,
0. -/
theorem C8_whitespace_only (bs : List Byte) (h : ∀ r ∈ runes bs, isSpace r = true) :
    (∃ c, count (ofBytes bs) = some c ∧ c.err = none ∧ c.words = 0) ∧
    count (ofBytes [0x20, 0x20, 0x09, 0x0A, 0x20, 0x20]) = some ⟨1, 0, 6, none⟩ ∧
    count (ofBytes []) = some ⟨0, 0, 0, none⟩ := by
  refine ⟨⟨_, count_ofBytes bs, rfl, ?_⟩, by decide, by decide⟩
  simp only [wordsFrom_all_space false _ h]; rfl

/-- C8, at the input U+2003 (EM SPACE), U+00A0, tab, newline. -/
theorem C8_whitespace_only_witness :
    (∀ r ∈ runes [0xE2, 0x80, 0x83, 0xC2, 0xA0, 0x09, 0x0A], isSpace r = true) ∧
    (∃ c, count (ofBytes [0xE2, 0x80, 0x83, 0xC2, 0xA0, 0x09, 0x0A]) = some c ∧
      c.err = none ∧ c.words = 0) :=
  ⟨by decide, (C8_whitespace_only [0xE2, 0x80, 0x83, 0xC2, 0xA0, 0x09, 0x0A] (by decide)).1⟩

/-- C9: for every non-empty input none of whose decoded characters is
whitespace, `count` returns `words = 1`. -/
theorem C9_no_whitespace (bs : List Byte) (hne : bs ≠ [])
    (h : ∀ r ∈ runes bs, isSpace r = false) :
    ∃ c, count (ofBytes bs) = some c ∧ c.err = none ∧ c.words = 1 := by
  refine ⟨_, count_ofBytes bs, rfl, ?_⟩
  have hr : runes bs ≠ [] := fun h0 => hne ((runes_eq_nil bs).1 h0)
  simp only [wordsFrom_no_space _ hr h]; rfl

/-- C9, at the input `a`, the invalid byte 0xFF, U+4F60. -/
theorem C9_no_whitespace_witness :
    ([0x61, 0xFF, 0xE4, 0xBD, 0xA0] : List Byte) ≠ [] ∧
    (∀ r ∈ runes [0x61, 0xFF, 0xE4, 0xBD, 0xA0], isSpace r = false) ∧
    (∃ c, count (ofBytes [0x61, 0xFF, 0xE4, 0xBD, 0xA0]) = some c ∧ c.err = none ∧
      c.words = 1) :=
  ⟨by decide, by decide, C9_no_whitespace [0x61, 0xFF, 0xE4, 0xBD, 0xA0] (by decide) (by decide)⟩

/-- C10: for every triple of counts, every name and every choice of the three
flags, `printCounts` appends to the output exactly the line made of the
requested counts, in the order lines, words, bytes, each in decimal
right-justified in a field of width 8 (a longer number is written in full),
then a space and the name when the name is not empty, then a newline. -/
theorem C10_printCounts_line (lines words bytesCount : Int) (name : String)
    (showL showW showC : Bool) (stdout : String) :
    printCounts lines words bytesCount name showL showW showC stdout
      = stdout ++ specLine lines words bytesCount name showL showW showC :=
  printCounts_eq_specLine lines words bytesCount name showL showW showC stdout

/-- C11: the columns shown are those selected by the flags `-l`, `-w`, `-c`:
with at least one flag given, every output line holds exactly the selected
counts; with none given the run is the run with all three given; with `-l`
only on the input `"x\ny\n"` the output is the line-count column alone, with
value 2. -/
theorem C11_flags_select_columns :
    (∀ (args : List String) (env : Env),
      main false false false args env = main true true true args env) ∧
    (∀ (l w c : Bool) (env : Env), (l || w || c) = true → (env.stdin 0).err = Err.EOF →
      ∃ cs, count (env.stdin 0) = some cs ∧
        main l w c [] env = some ⟨specLine cs.lines cs.words cs.bytesCount "" l w c, "", 0⟩) ∧
    (∀ (l w c : Bool) (args : List String) (env : Env), (l || w || c) = true → args ≠ [] →
      ∃ out, main l w c args env = some out ∧
        out.stdout = perFileLines l w c (successes env args) ++
          (if 1 < (successes env args).length then totalLine l w c (successes env args)
           else "")) ∧
    main true false false [] (stdinOnly [0x78, 0x0A, 0x79, 0x0A])
      = some ⟨"       2\n", "", 0⟩ := by
  refine ⟨fun _ _ => rfl, ?_, ?_, by decide⟩
  · intro l w c env hf herr
    refine ⟨_, count_eq _, ?_⟩
    rw [main_stdin, if_pos herr, effectiveFlags_of_some l w c hf]
  · intro l w c args env hf hne
    obtain ⟨err, h⟩ := main_files l w c args env hne
    rw [effectiveFlags_of_some l w c hf] at h
    exact ⟨_, h, rfl⟩

/-- C11, at the flags `-l -c` on a standard input holding `"x\ny\n"`. -/
theorem C11_flags_select_columns_witness :
    ∃ cs, count ((stdinOnly [0x78, 0x0A, 0x79, 0x0A]).stdin 0) = some cs ∧
      main true false true [] (stdinOnly [0x78, 0x0A, 0x79, 0x0A])
        = some ⟨specLine cs.lines cs.words cs.bytesCount "" true false true, "", 0⟩ :=
  C11_flags_select_columns.2.1 true false true (stdinOnly [0x78, 0x0A, 0x79, 0x0A])
    (by decide) (by decide)

/-- C12: for every run with one or more positional arguments, the line named
`total` is printed if and only if more than one input was successfully
processed; it then comes last, after the per-file lines, in the same format,
and each of its counts is the sum of that count over the successfully
processed inputs. -/
theorem C12_total_line (l w c : Bool) (args : List String) (env : Env) (hne : args ≠ []) :
    ∃ out, main l w c args env = some out ∧
      (1 < (successes env args).length →
        out.stdout = perFileLines (effectiveFlags l w c).1 (effectiveFlags l w c).2.1
            (effectiveFlags l w c).2.2 (successes env args) ++
          specLine ((successes env args).map fun x => x.2.lines).sum
            ((successes env args).map fun x => x.2.words).sum
            ((successes env args).map fun x => x.2.bytesCount).sum "total"
            (effectiveFlags l w c).1 (effectiveFlags l w c).2.1 (effectiveFlags l w c).2.2) ∧
      (¬ 1 < (successes env args).length →
        out.stdout = perFileLines (effectiveFlags l w c).1 (effectiveFlags l w c).2.1
          (effectiveFlags l w c).2.2 (successes env args)) := by
  obtain ⟨err, h⟩ := main_files l w c args env hne
  refine ⟨_, h, ?_, ?_⟩
  · intro h1
    simp only [h1, if_true]
    rfl
  · intro h1
    simp only [h1, if_false]
    exact String.append_empty _

/-- C12, at the two files `A` and `B`: both are processed and the total line
follows their lines. -/
theorem C12_total_line_witness :
    (["A", "B"] : List String) ≠ [] ∧ 1 < (successes twoFiles ["A", "B"]).length ∧
    ∃ out, main false false false ["A", "B"] twoFiles = some out ∧
      out.stdout = perFileLines true true true (successes twoFiles ["A", "B"]) ++
        specLine 2 3 6 "total" true true true := by
  obtain ⟨out, h1, h2, _⟩ := C12_total_line false false false ["A", "B"] twoFiles (by decide)
  exact ⟨by decide, by decide, out, h1, h2 (by decide)⟩

/-- C13: for every run with positional arguments, the per-file output lines
are the formatted counts of the inputs that were opened and read without
error, in the order of the arguments, followed by nothing or by the total
line; a named file that fails to open or to read leaves the output as if it
had not been given, and the inputs after it are processed. -/
theorem C13_per_file_lines (l w c : Bool) (args : List String) (env : Env) (hne : args ≠ []) :
    (∃ out t, main l w c args env = some out ∧
      out.stdout = perFileLines (effectiveFlags l w c).1 (effectiveFlags l w c).2.1
        (effectiveFlags l w c).2.2 (successes env args) ++ t ∧
      (t = "" ∨ t = totalLine (effectiveFlags l w c).1 (effectiveFlags l w c).2.1
        (effectiveFlags l w c).2.2 (successes env args)) ∧ out.exitCode = 0) ∧
    (∀ (pre post : List String) (name : String), args = pre ++ name :: post → name ≠ "-" →
      successOf (name, env.openFile name) = none → pre ++ post ≠ [] →
      ∃ o1 o2, main l w c args env = some o1 ∧ main l w c (pre ++ post) env = some o2 ∧
        o1.stdout = o2.stdout) := by
  obtain ⟨err, h⟩ := main_files l w c args env hne
  refine ⟨⟨_, _, h, rfl, ?_, rfl⟩, ?_⟩
  · by_cases h1 : 1 < (successes env args).length
    · right; simp only [h1, if_true]
    · left; simp only [h1, if_false]
  · intro pre post name hargs hname hfail hne2
    obtain ⟨err2, h2⟩ := main_files l w c (pre ++ post) env hne2
    refine ⟨_, _, h, h2, ?_⟩
    simp only [hargs, successes_skip env pre post name hname hfail]

/-- C13, at the arguments `A`, `nope`, `B`, where `nope` cannot be opened: the
output is that of the arguments `A`, `B`. -/
theorem C13_per_file_lines_witness :
    ∃ o1 o2, main false false false ["A", "nope", "B"] twoFiles = some o1 ∧
      main false false false (["A"] ++ ["B"]) twoFiles = some o2 ∧ o1.stdout = o2.stdout :=
  (C13_per_file_lines false false false ["A", "nope", "B"] twoFiles (by decide)).2
    ["A"] ["B"] "nope" (by decide) (by decide) (by decide) (by decide)

/-- C14, refuted as stated: the run `my-wc -x A` is stopped by `flag.Parse`,
the flag `-x` not being defined; its exit status is 2, neither 1 nor 0, and
nothing is written to standard output. -/
theorem C14_exit_status_counterexample :
    ∃ out, run ["-x", "A"] twoFiles (fun _ => notDefinedText "x") = some out ∧
      out.exitCode = 2 ∧ out.stdout = "" ∧ ¬ (out.exitCode = 1) ∧ ¬ (out.exitCode = 0) :=
  ⟨⟨"", notDefinedText "x", 2⟩, by decide, by decide⟩

/-- C14, amended: the exit status of a run is 2 exactly when `flag.Parse`
rejects the command line (bad flag syntax, a flag that is not defined, an
invalid boolean value), and 1 exactly when the command line is accepted, no
positional argument is given and the read of standard input fails; in both
cases nothing is written to standard output; in every other run, whatever
files fail to open or to read, it is 0. -/
theorem C14_exit_status_amended (argv : List String) (env : Env)
    (flagText : FlagStop → String) :
    ∃ out, run argv env flagText = some out ∧
      (out.exitCode = 2 ↔
        ∃ e, flagParse ⟨false, false, false⟩ argv = .stop e ∧ e ≠ FlagStop.help) ∧
      (out.exitCode = 1 ↔
        ∃ fl, flagParse ⟨false, false, false⟩ argv = .ok fl [] ∧
          (env.stdin 0).err ≠ Err.EOF) ∧
      (out.exitCode = 0 ∨ out.exitCode = 1 ∨ out.exitCode = 2) ∧
      (out.exitCode ≠ 0 → out.stdout = "") := by
  cases hp : flagParse ⟨false, false, false⟩ argv with
  | stop e =>
    cases e with
    | help =>
      refine ⟨⟨"", flagText .help, 0⟩, by simp only [run, hp], ?_, ?_, Or.inl rfl, ?_⟩
      · simp
      · simp
      · intro h; exact absurd rfl h
    | badSyntax s =>
      refine ⟨⟨"", flagText (.badSyntax s), 2⟩, by simp only [run, hp], ?_, ?_,
        Or.inr (Or.inr rfl), fun _ => rfl⟩
      · simp
      · simp
    | notDefined s =>
      refine ⟨⟨"", flagText (.notDefined s), 2⟩, by simp only [run, hp], ?_, ?_,
        Or.inr (Or.inr rfl), fun _ => rfl⟩
      · simp
      · simp
    | badBool v s =>
      refine ⟨⟨"", flagText (.badBool v s), 2⟩, by simp only [run, hp], ?_, ?_,
        Or.inr (Or.inr rfl), fun _ => rfl⟩
      · simp
      · simp
  | ok fl args =>
    obtain ⟨out, h1, h2, h3, h4⟩ := main_exitCode fl.lFlag fl.wFlag fl.cFlag args env
    refine ⟨out, by simp only [run, hp]; exact h1, ?_, ?_, ?_, ?_⟩
    · constructor
      · intro h; rcases h3 with h0 | h0 <;> omega
      · rintro ⟨e, he, _⟩; exact ParseResult.noConfusion he
    · rw [h2]
      constructor
      · rintro ⟨rfl, herr⟩; exact ⟨fl, rfl, herr⟩
      · rintro ⟨fl1, he, herr⟩
        injection he with _ hargs
        exact ⟨hargs, herr⟩
    · rcases h3 with h0 | h0
      · exact Or.inl h0
      · exact Or.inr (Or.inl h0)
    · intro hne
      apply h4
      rcases h3 with h0 | h0
      · exact absurd h0 hne
      · exact h0

/-- C15, refuted as stated: on the two files holding `"a b\n"` and `"c\n"` the
output is not the lines with counts 1 1 4, 1 1 2 and 2 2 6; the first file has
two words. -/
theorem C15_two_files_counterexample :
    ∃ out, main false false false ["A", "B"] twoFiles = some out ∧
      count (ofBytes [0x61, 0x20, 0x62, 0x0A]) = some ⟨1, 2, 4, none⟩ ∧
      out.stdout ≠ specLine 1 1 4 "A" true true true ++ specLine 1 1 2 "B" true true true
        ++ specLine 2 2 6 "total" true true true :=
  ⟨⟨"       1       2       4 A\n       1       1       2 B\n       2       3       6 total\n",
    "", 0⟩, by decide, by decide, by decide⟩

/-- C15, amended: on the two files holding `"a b\n"` and `"c\n"`, with no
flags, the output is the line with lines 1, words 2, bytes 4 for the first
file, the line with lines 1, words 1, bytes 2 for the second, and the line
`total` with lines 2, words 3, bytes 6; nothing goes to standard error and the
exit status is 0. -/
theorem C15_two_files_amended :
    main false false false ["A", "B"] twoFiles
      = some ⟨specLine 1 2 4 "A" true true true ++ specLine 1 1 2 "B" true true true
          ++ specLine 2 3 6 "total" true true true, "", 0⟩ ∧
    specLine 1 2 4 "A" true true true ++ specLine 1 1 2 "B" true true true
        ++ specLine 2 3 6 "total" true true true
      = "       1       2       4 A\n       1       1       2 B\n       2       3       6 total\n" :=
  ⟨by decide, by decide⟩

/-- C16: `count` on the 12 bytes of `"hello world\n"` returns lines 1, words 2,
bytes 12 and a nil error. -/
theorem C16_hello_world :
    count (ofBytes [0x68, 0x65, 0x6C, 0x6C, 0x6F, 0x20, 0x77, 0x6F, 0x72, 0x6C, 0x64, 0x0A])
      = some ⟨1, 2, 12, none⟩ ∧
    ([0x68, 0x65, 0x6C, 0x6C, 0x6F, 0x20, 0x77, 0x6F, 0x72, 0x6C, 0x64, 0x0A] : List Byte).map
        Fin.val = "hello world\n".toList.map Char.toNat :=
  ⟨by decide, by decide⟩

/-- C17: the scanner of `count` is a two-state machine that starts outside a
word; after any number of passes through the loop the flag `inWord` is set if
and only if the characters read so far are not none and the last of them is
not whitespace; each pass adds one to `words` when it takes the flag from
unset to set and nothing otherwise, so `words` is the number of such
transitions; the value `count` returns is the one reached at the end. -/
theorem C17_state_machine (r : Reader) (k : Nat) :
    (varsAfter 0 (initVars r)).inWord = false ∧
    ((varsAfter k (initVars r)).inWord = true ↔
      ∃ x, ((runes r.buf).take k).getLast? = some x ∧ isSpace x = false) ∧
    (varsAfter (k + 1) (initVars r)).words = (varsAfter k (initVars r)).words +
      (if (varsAfter k (initVars r)).inWord = false ∧
          (varsAfter (k + 1) (initVars r)).inWord = true then 1 else 0) ∧
    (varsAfter k (initVars r)).words = ((List.range k).countP fun j =>
      !(varsAfter j (initVars r)).inWord && (varsAfter (j + 1) (initVars r)).inWord : Nat) ∧
    (∃ c, count r = some c ∧
      c.words = (varsAfter (runes r.buf).length (initVars r)).words) :=
  ⟨rfl, varsAfter_inWord r k, varsAfter_step r k, varsAfter_words_countP r k,
    count_eq_varsAfter r⟩

/-- C18: a byte that does not begin a valid, complete UTF-8 sequence is read
as the replacement character U+FFFD of size one: the pass of the loop that
reads it consumes that byte alone, adds 1 to `bytes` and nothing to `lines`,
and, U+FFFD not being whitespace, leaves the scanner inside a word, adding 1
to `words` if it was outside; the one-byte input 0xFF gives lines 0, words 1,
bytes 1. -/
theorem C18_malformed_policy (c : Byte) (rest : List Byte) (e : Err) (l w b : Int)
    (i : Bool) (h : beginsValid c rest = false) :
    nextRune c rest = (RuneError, 1) ∧ isSpace RuneError = false ∧
    loopBody ⟨⟨c :: rest, e⟩, l, w, b, i⟩
      = some ⟨⟨rest, e⟩, l, if i = true then w else w + 1, b + 1, true⟩ ∧
    count (ofBytes [0xFF]) = some ⟨0, 1, 1, none⟩ := by
  have hn := nextRune_of_not_valid c rest h
  refine ⟨hn, isSpace_RuneError, ?_, by decide⟩
  have h10 : ¬ RuneError = 0x0A := by decide
  rw [loopBody_cons, hn]
  simp [isSpace_RuneError, h10]

/-- C18, at the truncated sequence 0xE2 0x80 followed by `a`, read outside a
word. -/
theorem C18_malformed_policy_witness :
    beginsValid 0xE2 [0x80, 0x61] = false ∧
    loopBody ⟨⟨[0xE2, 0x80, 0x61], Err.EOF⟩, 0, 0, 0, false⟩
      = some ⟨⟨[0x80, 0x61], Err.EOF⟩, 0, 1, 1, true⟩ :=
  ⟨by decide, (C18_malformed_policy 0xE2 [0x80, 0x61] Err.EOF 0 0 0 false (by decide)).2.2.1⟩

/-- C19: for every input read to a clean end of stream the counts `count`
returns satisfy `lines + words ≤ bytes`, and none of them is negative. -/
theorem C19_lines_words_le_bytes (bs : List Byte) :
    ∃ c, count (ofBytes bs) = some c ∧ c.err = none ∧
      c.lines + c.words ≤ c.bytesCount ∧ 0 ≤ c.lines ∧ 0 ≤ c.words ∧ 0 ≤ c.bytesCount := by
  refine ⟨_, count_ofBytes bs, rfl, ?_, ?_, ?_, ?_⟩
  · have := lineFeeds_add_words_le bs false
    show (lineFeeds bs : Int) + (wordsFrom false (runes bs) : Int) ≤ (bs.length : Int)
    omega
  · exact Int.ofNat_nonneg _
  · exact Int.ofNat_nonneg _
  · exact Int.ofNat_nonneg _

/-- C20: for all byte streams `A` and `B`, the `words` value of `count` on
`A ++ B` is at most the sum of those on `A` and on `B`, at least that sum
less 2, and at least that sum less 1 when the split falls between two
characters of `A ++ B`. -/
theorem C20_words_concat_bounds (A B : List Byte) :
    ∃ ca cb cab, count (ofBytes A) = some ca ∧ count (ofBytes B) = some cb ∧
      count (ofBytes (A ++ B)) = some cab ∧
      cab.words ≤ ca.words + cb.words ∧ ca.words + cb.words ≤ cab.words + 2 ∧
      (splitOnRuneBoundary A B = true → ca.words + cb.words ≤ cab.words + 1) := by
  refine ⟨_, _, _, count_ofBytes A, count_ofBytes B, count_ofBytes (A ++ B), ?_, ?_, ?_⟩
  · have := (words_concat_bounds A B false).1
    show (wordsFrom false (runes (A ++ B)) : Int)
      ≤ (wordsFrom false (runes A) : Int) + (wordsFrom false (runes B) : Int)
    omega
  · have := (words_concat_bounds A B false).2
    show (wordsFrom false (runes A) : Int) + (wordsFrom false (runes B) : Int)
      ≤ (wordsFrom false (runes (A ++ B)) : Int) + 2
    omega
  · intro hb
    have h1 := runes_append_of_boundary A B (splitOnRuneBoundary_exists A B hb)
    have h2 := wordsFrom_append false (runes A) (runes B)
    have h3 := wordsFrom_any_bounds (inWordAfter false (runes A)) (runes B)
    have h4 := wordsFrom_false_bounds (runes B)
    rw [← h1] at h2
    show (wordsFrom false (runes A) : Int) + (wordsFrom false (runes B) : Int)
      ≤ (wordsFrom false (runes (A ++ B)) : Int) + 1
    omega

/-- C20, at `A = "a"`, `B = "b"` (a split between two characters, one word
lost), and at `A = 0xE2 0x80`, `B = 0x80` (a split inside U+2000, two words
lost). -/
theorem C20_words_concat_bounds_witness :
    splitOnRuneBoundary [0x61] [0x62] = true ∧
    (∃ ca cb cab, count (ofBytes [0x61]) = some ca ∧ count (ofBytes [0x62]) = some cb ∧
      count (ofBytes ([0x61] ++ [0x62])) = some cab ∧ ca.words + cb.words ≤ cab.words + 1) ∧
    count (ofBytes [0xE2, 0x80]) = some ⟨0, 1, 2, none⟩ ∧
    count (ofBytes [0x80]) = some ⟨0, 1, 1, none⟩ ∧
    count (ofBytes ([0xE2, 0x80] ++ [0x80])) = some ⟨0, 0, 3, none⟩ ∧
    splitOnRuneBoundary [0xE2, 0x80] [0x80] = false := by
  have hb : splitOnRuneBoundary [0x61] [0x62] = true := by decide
  obtain ⟨ca, cb, cab, h1, h2, h3, _, _, h6⟩ := C20_words_concat_bounds [0x61] [0x62]
  exact ⟨hb, ⟨ca, cb, cab, h1, h2, h3, h6 hb⟩, by decide, by decide, by decide, by decide⟩

end MyWc
